import Mathlib

/-!
Verification of the PK3 asset indexing / resolution engine.

This file gives a shallow embedding, in Lean, of the core data model and
algorithms of the repository (a PK3 model browser: archive extraction,
asset index building, skin parsing, texture resolution and cache
materialization), and proves or refutes the specified claims about them.

Conventions of the embedding:
* Python `str` values are Lean `String`s; `pathlib.Path` values are kept as
  the strings they print as, with explicit helper functions modelling the
  `pathlib` operations actually used by the code (`parts`, `name`, `stem`,
  `suffix`, `with_suffix`, `as_posix`, resolution of `..`).
* Python dicts are insertion-ordered association lists; Python sets of
  paths are lists deduplicated on insertion (their iteration order is a
  model artifact, and no theorem depends on it).
* Filesystem reads are inputs (snapshot structures / oracle functions);
  filesystem writes are explicit state (sets of paths).
* Fallible operations return `Option` / `Except`.
-/

/-! ## Path primitives (pathlib model)

`normalize_rel` in `index.py` is
`str(Path(path).as_posix()).lower().lstrip("./")`.
`Path` tokenizes on the platform separator(s), dropping empty and `"."`
components; `as_posix` renders with `/`.  The platform separator is a
parameter `sep` (`'/'` on POSIX, `'\\'` on Windows; on Windows `'/'` is
also accepted, which the tokenizer reflects by always splitting on `'/'`).
-/

/-- Characters stripped by `lstrip("./")`. -/
def stripChar (c : Char) : Bool := c = '.' || c = '/'

/-- Is `c` a path separator, given platform separator `sep`?  `'/'` always is. -/
def isSepChar (sep c : Char) : Bool := c = '/' || c = sep

/-- Split a character list at separator characters (keeping empty chunks). -/
def splitSepsAux (sep : Char) : List Char → List Char → List (List Char)
  | [], acc => [acc.reverse]
  | c :: cs, acc =>
    if isSepChar sep c then acc.reverse :: splitSepsAux sep cs []
    else splitSepsAux sep cs (c :: acc)

/-- All chunks of `s` between separators (possibly empty chunks). -/
def rawTokens (sep : Char) (s : List Char) : List (List Char) :=
  splitSepsAux sep s []

/-- A chunk that survives `pathlib` normalization: non-empty and not `"."`. -/
def goodTok (t : List Char) : Bool := !t.isEmpty && !(t == ['.'])

/-- The components of a path (`Path(s).parts` for a relative `s`):
empty chunks and `"."` chunks are dropped, `".."` is kept. -/
def pathTokens (sep : Char) (s : List Char) : List (List Char) :=
  (rawTokens sep s).filter goodTok

/-- Join components with `'/'` (the `as_posix` rendering of the components). -/
def renderTokens : List (List Char) → List Char
  | [] => []
  | [t] => t
  | t :: ts => t ++ '/' :: renderTokens ts

/-- A well-formed path component: non-empty, not `"."`, free of separators. -/
def GoodTok (sep : Char) (t : List Char) : Prop :=
  t ≠ [] ∧ t ≠ ['.'] ∧ ∀ c ∈ t, isSepChar sep c = false

/-- Effect of `lstrip("./")` on a component list: leading `'.'` characters are
removed from the first component(s); fully-consumed components disappear. -/
def stripToks : List (List Char) → List (List Char)
  | [] => []
  | t :: r =>
    let t2 := t.dropWhile stripChar
    if t2.isEmpty then stripToks r else t2 :: r

/-- Does the path start with a separator (absolute-path marker)? -/
def isAbs (sep : Char) (s : List Char) : Bool :=
  match s with
  | [] => false
  | c :: _ => isSepChar sep c

/-- `str.lower()` on characters lists (ASCII case folding, as `Char.toLower`). -/
def lowerChars (s : List Char) : List Char := s.map Char.toLower

/-- `str.lower()` on strings. -/
def lowerStr (s : String) : String := String.mk (lowerChars s.data)

/-- `normalize_rel` from `index.py` at character-list level:
`str(Path(path).as_posix()).lower().lstrip("./")`. -/
def normalizeChars (sep : Char) (s : List Char) : List Char :=
  let rendered := (if isAbs sep s then ['/'] else []) ++ renderTokens (pathTokens sep s)
  (lowerChars rendered).dropWhile stripChar

/-- `normalize_rel` from `index.py` (parametrized by the platform separator). -/
def normalize_rel (sep : Char) (s : String) : String :=
  String.mk (normalizeChars sep s.data)

/-- Replace the platform separator by `'/'` in a single character
(used to state slash-direction insensitivity). -/
def sepCollapse (sep c : Char) : Char := if c = sep then '/' else c

/-- `Path(s).parts` as strings, for POSIX paths. -/
def pathParts (s : String) : List String :=
  (pathTokens '/' s.data).map (fun t => String.mk t)

/-- `Path(s).name` (final component) for POSIX paths; `""` for an empty path. -/
def nameChars (s : String) : List Char :=
  (pathTokens '/' s.data).getLast?.getD []

/-- Split a file name into `(stem, suffix)` following `pathlib`: the suffix
starts at the last dot, provided that dot is neither the first nor the last
character of the name. -/
def extSplit (n : List Char) : List Char × List Char :=
  let r := n.reverse
  let pre := r.takeWhile (fun c => c ≠ '.')
  match r.dropWhile (fun c => c ≠ '.') with
  | '.' :: rest =>
    if rest.isEmpty || pre.isEmpty then (n, [])
    else (rest.reverse, '.' :: pre.reverse)
  | _ => (n, [])

/-- `Path(s).name`. -/
def pathName (s : String) : String := String.mk (nameChars s)

/-- `Path(s).stem`. -/
def pathStem (s : String) : String := String.mk (extSplit (nameChars s)).1

/-- `Path(s).suffix`. -/
def pathSuffix (s : String) : String := String.mk (extSplit (nameChars s)).2

/-- `Path(s).with_suffix(ext)`: replace (or add) the suffix of the final
component.  (`pathlib` raises on an empty name; that case is unreachable in
the modelled code and is mapped to `ext`.) -/
def withSuffix (s ext : String) : String :=
  let toks := pathTokens '/' s.data
  match toks.getLast? with
  | none => ext
  | some n => String.mk (renderTokens (toks.dropLast ++ [(extSplit n).1 ++ ext.data]))

/-- `Path(s).as_posix()` for a relative path already in `Path` normal form
view: components joined with `/` (drops empty and `"."` chunks, as the
`Path` constructor does). -/
def asPosix (s : String) : String :=
  String.mk (renderTokens (pathTokens '/' s.data))

/-- The first component of a stripped component list starts with a
non-stripped character (or the list is empty). -/
def HeadOk : List (List Char) → Prop
  | [] => True
  | [] :: _ => False
  | (c :: _) :: _ => stripChar c = false

/-! ## Archive extraction (`pk3.py`, `safe_extract_members`)

Absolute paths are lists of components.  `Path.resolve()` on an absolute
path with no symlinks normalizes `..` lexically.  `destination / filename`
follows `pathlib` joining: an absolute member path replaces the
destination.  The guard in the code is
`str(resolved_target).startswith(str(destination))`.
-/

/-- Python `s.startswith(pre)` (structural character-prefix test;
`String.isPrefixOf` is byte-level well-founded recursion, which the kernel
cannot evaluate, so the model uses the `List` version). -/
def pyStartswith (s pre : String) : Bool := List.isPrefixOf pre.data s.data

/-- One archive member, as the fields of `ZipInfo` used by the code. -/
structure ZMember where
  filename : String
  isDir : Bool
deriving DecidableEq, Repr

/-- Lexical `..` resolution over absolute-path components (`Path.resolve()`
for non-symlinked paths; `..` at the root stays at the root). -/
def pResolve (segs : List String) : List String :=
  segs.foldl (fun acc s => if s = ".." then acc.dropLast else acc ++ [s]) []

/-- `destination / info.filename` (`pathlib` join). -/
def joinPath (dest : List String) (filename : String) : List String :=
  if isAbs '/' filename.data then pathParts filename else dest ++ pathParts filename

/-- `str(p)` for an absolute path given by components. -/
def renderAbs (segs : List String) : String :=
  segs.foldl (fun acc s => acc ++ "/" ++ s) ""

/-- The loop of `safe_extract_members`: `dest` is the already-resolved
destination root, the state is the list of extracted names and the set of
files created so far (as resolved absolute component paths).  An unsafe
member aborts with `ArchiveError`, leaving the files already written. -/
def extractGo (dest : List String) :
    List ZMember → List String → List (List String) →
      Except String (List String) × List (List String)
  | [], extracted, fs => (Except.ok extracted, fs)
  | m :: rest, extracted, fs =>
    let rt := pResolve (joinPath dest m.filename)
    if pyStartswith (renderAbs rt) (renderAbs dest) then
      if m.isDir then extractGo dest rest extracted fs
      else extractGo dest rest (extracted ++ [m.filename]) (fs ++ [rt])
    else (Except.error m.filename, fs)

/-- `safe_extract_members archive destination members` from `pk3.py`:
returns the extraction outcome together with the files created. -/
def safe_extract_members (dest : List String) (members : List ZMember) :
    Except String (List String) × List (List String) :=
  extractGo dest members [] []

/-- Is `p` the destination root or a descendant of it (component-wise)? -/
def isUnderRoot (root p : List String) : Bool := List.isPrefixOf root p

/-! ## Cache materialization (`cache.py`)

The cache is the set of relative path strings of the files under
`cache_root`.  A source copy either succeeds or fails; which happens is a
property of the asset's source and the filesystem, so it enters the model
as a field of the asset.  `TEXTURE_EXTS` itself lives in `constants.py`,
which is not part of the sources given; see its docstring.
-/

/-- Modelled from the spec: `TEXTURE_EXTS` is defined in `constants.py`,
which is absent from the given sources.  The spec fixes only that it is "a
fixed, ordered set" of recognized texture extensions whose "order defines
fallback preference"; the concrete members below are a faithful choice
consistent with the spec's examples (`.jpg`, `.png`). -/
def TEXTURE_EXTS : List String := [".jpg", ".jpeg", ".png", ".tga"]

/-- One entry of the `assets` list handed to `extract_assets`, together
with whether copying its bytes out of its source succeeds. -/
structure CAsset where
  dest : String
  ok : Bool
deriving DecidableEq, Repr

/-- `normalize_rel` as used by `cache.py` (POSIX separator). -/
def normCache (p : String) : String := normalize_rel '/' p

/-- Python-dict upsert on an insertion-ordered association list. -/
def upsertMap : List (String × String) → String → String → List (String × String)
  | [], k, v => [(k, v)]
  | e :: r, k, v => if e.1 = k then (k, v) :: r else e :: upsertMap r k v

/-- Association-list lookup (Python `dict.get`). -/
def lookupMap (m : List (String × String)) (k : String) : Option String :=
  (m.find? (fun e => e.1 == k)).map (fun e => e.2)

/-- The copy loop of `extract_assets`: for each asset the normalized
destination is added to `keep` first; then the copy is attempted; a failed
copy appends to `failed` and a successful texture copy updates
`texture_map`. -/
def extractLoop :
    List CAsset → Finset String → Finset String → List (String × String) → List String →
      Finset String × Finset String × List (String × String) × List String
  | [], fs, keep, tmap, failed => (fs, keep, tmap, failed)
  | a :: rest, fs, keep, tmap, failed =>
    let keep2 := insert (normCache a.dest) keep
    if a.ok then
      let fs2 := insert a.dest fs
      let tmap2 :=
        if lowerStr (pathSuffix a.dest) ∈ TEXTURE_EXTS then
          upsertMap tmap (lowerStr (pathStem a.dest)) a.dest
        else tmap
      extractLoop rest fs2 keep2 tmap2 failed
    else extractLoop rest fs keep2 tmap (failed ++ [a.dest])

/-- `cleanup_cache` from `cache.py`: delete every file whose normalized
relative path is not in the keep set (directory pruning does not change
the file set). -/
def cleanup_cache (fs : Finset String) (keep : Finset String) : Finset String :=
  fs.filter (fun p => normCache p ∈ keep)

/-- `extract_assets` from `cache.py`: returns the final cache file set, the
texture map and the failed destinations. -/
def extract_assets (fs0 : Finset String) (assets : List CAsset) :
    Finset String × List (String × String) × List String :=
  let r := extractLoop assets fs0 ∅ [] []
  (cleanup_cache r.1 r.2.1, r.2.2.1, r.2.2.2)

/-- The keep set accumulated by `extract_assets` over an asset list. -/
def keepSet (assets : List CAsset) : Finset String :=
  assets.foldl (fun k a => insert (normCache a.dest) k) ∅

/-! ## Skin parsing (`skin.py`, `parse_skin_text`) -/

/-- `str.splitlines()` restricted to the line breaks `\n`, `\r\n`, `\r`
(the ones that can occur in the modelled skin files). -/
def splitlinesAux : List Char → List Char → List (List Char)
  | [], acc => if acc.isEmpty then [] else [acc.reverse]
  | '\r' :: '\n' :: rest, acc => acc.reverse :: splitlinesAux rest []
  | '\r' :: rest, acc => acc.reverse :: splitlinesAux rest []
  | '\n' :: rest, acc => acc.reverse :: splitlinesAux rest []
  | c :: rest, acc => splitlinesAux rest (c :: acc)

/-- `text.splitlines()`. -/
def splitlines (s : String) : List String :=
  (splitlinesAux s.data []).map (fun l => String.mk l)

/-- A whitespace character for `str.strip()` (ASCII core). -/
def isSpaceChar (c : Char) : Bool := c = ' ' || c = '\t' || c = '\n' || c = '\r'

/-- `line.strip()`. -/
def pystrip (s : String) : String :=
  String.mk (((s.data.dropWhile isSpaceChar).reverse.dropWhile isSpaceChar).reverse)

/-- `line.split(",", 1)`: the part before the first comma and the rest. -/
def splitFirstComma (s : String) : String × String :=
  (String.mk (s.data.takeWhile (fun c => c ≠ ',')),
   String.mk ((s.data.dropWhile (fun c => c ≠ ',')).drop 1))

/-- The body of the `parse_skin_text` loop for one raw line. -/
def processLine (m : List (String × String)) (raw_line : String) : List (String × String) :=
  let line := pystrip raw_line
  if line == "" || pyStartswith line "//" then m
  else if !(line.data.contains ',') then m
  else
    let pt := splitFirstComma line
    let part := pystrip pt.1
    let tex := pystrip pt.2
    if (lowerStr tex == "*off" || lowerStr tex == "off") then m
    else if !(part == "") then upsertMap m part tex
    else m

/-- `parse_skin_text` from `skin.py`: the binding map as an
insertion-ordered association list (Python dict). -/
def parse_skin_text (text : String) : List (String × String) :=
  (splitlines text).foldl processLine []

/-! ## Asset index building (`data_types.py`, `index.py`)

The filesystem snapshot read by `build_index` is an input: the archives in
the order produced by `sorted(base_dir.rglob("*.pk3"))` (the code sorts, so
this order is canonical), the model directories in `iterdir()` order, each
with its `glob`/`rglob` result lists, and the loose texture files.  Python
dicts are insertion-ordered association lists; Python sets of paths are
dedup lists.  Archive member paths and disk paths relative to the base
directory are stored as their string forms.
-/

/-- `FileSource` from `data_types.py`. -/
structure FileSource where
  origin : String
  container : Option String
  rel_path : String
deriving DecidableEq, Repr

/-- `ModelSource` from `data_types.py` (`skins`/`glas` are Python sets,
modelled as dedup lists). -/
structure ModelSource where
  origin : String
  container : Option String
  glm : Option String := none
  skins : List String := []
  glas : List String := []
deriving DecidableEq, Repr

/-- `set.add` on a dedup list. -/
def addSet (l : List String) (x : String) : List String :=
  if x ∈ l then l else l ++ [x]

/-- `table.setdefault(key, []).append(fs)`. -/
def appendTab : List (String × List FileSource) → String → FileSource →
    List (String × List FileSource)
  | [], k, f => [(k, [f])]
  | e :: r, k, f => if e.1 = k then (e.1, e.2 ++ [f]) :: r else e :: appendTab r k f

/-- Key lookup in an association table (`key in table` / `table[key]`). -/
def lookupTab (tab : List (String × List FileSource)) (k : String) :
    Option (List FileSource) :=
  (tab.find? (fun e => e.1 == k)).map (fun e => e.2)

/-- The key of `entry["sources"]`: a pk3 path for archive sources, the model
directory for disk sources (`key = model_dir`). -/
inductive SourceKey where
  | archiveKey : String → SourceKey
  | dirKey : String → SourceKey
deriving DecidableEq, Repr

/-- One value of `models_tmp`: `{"sources": {...}, "skins": set()}`. -/
structure MEntry where
  sources : List (SourceKey × ModelSource) := []
  skins : List String := []
deriving DecidableEq, Repr

/-- The mutable state accumulated by `build_index` before final assembly. -/
structure IndexState where
  models_tmp : List (String × MEntry) := []
  textures_by_rel : List (String × List FileSource) := []
  textures_by_stem : List (String × List FileSource) := []
  gla_index : List (String × List FileSource) := []
deriving DecidableEq, Repr

/-- `add_texture` from `build_index`. -/
def add_texture (st : IndexState) (rel origin : String) (container : Option String) :
    IndexState :=
  let fs : FileSource := ⟨origin, container, rel⟩
  { st with
    textures_by_rel := appendTab st.textures_by_rel (normalize_rel '/' rel) fs
    textures_by_stem := appendTab st.textures_by_stem (lowerStr (pathStem rel)) fs }

/-- `add_gla` from `build_index`. -/
def add_gla (st : IndexState) (rel origin : String) (container : Option String) :
    IndexState :=
  { st with gla_index := appendTab st.gla_index (normalize_rel '/' rel) ⟨origin, container, rel⟩ }

/-- `models_tmp.setdefault(name, empty)` followed by an in-place update. -/
def updAssocEntry : List (String × MEntry) → String → (MEntry → MEntry) →
    List (String × MEntry)
  | [], n, f => [(n, f {})]
  | e :: r, n, f => if e.1 = n then (e.1, f e.2) :: r else e :: updAssocEntry r n f

/-- Apply an entry update at a model name (`get_entry` plus mutation). -/
def updateModels (st : IndexState) (n : String) (f : MEntry → MEntry) : IndexState :=
  { st with models_tmp := updAssocEntry st.models_tmp n f }

/-- `entry["sources"].get(key)`, creating `init` if absent, then mutating. -/
def updAssocSource : List (SourceKey × ModelSource) → SourceKey → ModelSource →
    (ModelSource → ModelSource) → List (SourceKey × ModelSource)
  | [], k, init, f => [(k, f init)]
  | e :: r, k, init, f => if e.1 = k then (e.1, f e.2) :: r else e :: updAssocSource r k init f

/-- One archive member as listed by `infolist()`. -/
structure Pk3Entry where
  filename : String
  isDir : Bool
deriving DecidableEq, Repr

/-- One archive on disk; `readable = false` models `open_pk3` raising
`ArchiveError` (corrupt/unreadable archive). -/
structure Pk3File where
  path : String
  readable : Bool
  entries : List Pk3Entry
deriving DecidableEq, Repr

/-- The `models_tmp` effect of one non-texture archive member under
`models/players/<name>/`: the entry and its source record are created
unconditionally, then the suffix-specific update is applied. -/
def pk3EntryUpd (pk3path rel suffix : String) (ent : MEntry) : MEntry :=
  let key := SourceKey.archiveKey pk3path
  let init : ModelSource := ⟨"pk3", some pk3path, none, [], []⟩
  if suffix = ".glm" then
    { ent with
      sources := updAssocSource ent.sources key init (fun s =>
        if s.glm = none ∨ lowerStr (pathName rel) = "model.glm" then { s with glm := some rel }
        else s) }
  else if suffix = ".skin" then
    { ent with
      sources := updAssocSource ent.sources key init
        (fun s => { s with skins := addSet s.skins rel }),
      skins := addSet ent.skins rel }
  else if suffix = ".gla" then
    { ent with
      sources := updAssocSource ent.sources key init
        (fun s => { s with glas := addSet s.glas rel }) }
  else
    { ent with sources := updAssocSource ent.sources key init (fun s => s) }

/-- The loop body of the archive scan in `build_index` (one member). -/
def pk3MemberStep (pk3path : String) (st : IndexState) (info : Pk3Entry) : IndexState :=
  if info.isDir then st
  else
    let rel := info.filename
    let suffix := lowerStr (pathSuffix rel)
    if suffix ∈ TEXTURE_EXTS then add_texture st rel "pk3" (some pk3path)
    else
      match pathParts rel with
      | p0 :: p1 :: p2 :: _ =>
        if lowerStr p0 = "models" ∧ lowerStr p1 = "players" then
          let st2 := updateModels st p2 (pk3EntryUpd pk3path rel suffix)
          if suffix = ".gla" then add_gla st2 rel "pk3" (some pk3path)
          else if suffix ∈ TEXTURE_EXTS then add_texture st2 rel "pk3" (some pk3path)
          else st2
        else st
      | _ => st

/-- `should_skip_pk3` from `index.py` (currently includes every pk3). -/
def should_skip_pk3 (p : String) : Bool := false

/-- Scan one archive: an unreadable archive is skipped entirely
(`except ArchiveError: continue`). -/
def scanArchive (st : IndexState) (a : Pk3File) : IndexState :=
  if a.readable then a.entries.foldl (pk3MemberStep a.path) st else st

/-- The archive phase of `build_index` over the sorted pk3 list. -/
def scanArchives (st : IndexState) (pk3s : List Pk3File) : IndexState :=
  pk3s.foldl (fun s a => if should_skip_pk3 a.path then s else scanArchive s a) st

/-- One subdirectory of `models/players` on disk, with the enumeration
results the code reads from it (paths relative to the base directory). -/
structure DiskModelDir where
  name : String
  glmFiles : List String
  skinFiles : List String
  glaFiles : List String
  texFiles : List String
deriving DecidableEq, Repr

/-- The disk-model phase of `build_index` for one model directory: skipped
when no `.glm` file exists; otherwise the primary model file is
`model.glm` if present, else the first `.glm` enumerated. -/
def diskDirStep (st : IndexState) (d : DiskModelDir) : IndexState :=
  match d.glmFiles with
  | [] => st
  | g0 :: _ =>
    let glm_file := (d.glmFiles.find? (fun p => lowerStr (pathName p) == "model.glm")).getD g0
    let key := SourceKey.dirKey d.name
    let init : ModelSource := ⟨"disk", none, none, [], []⟩
    let st1 := updateModels st d.name (fun ent =>
      { ent with
        sources := updAssocSource ent.sources key init
          (fun s => { s with glm := some glm_file }) })
    let st2 := d.skinFiles.foldl (fun s rel => updateModels s d.name (fun ent =>
      { ent with
        sources := updAssocSource ent.sources key init
          (fun src => { src with skins := addSet src.skins rel }),
        skins := addSet ent.skins rel })) st1
    let st3 := d.glaFiles.foldl (fun s rel =>
      add_gla (updateModels s d.name (fun ent =>
        { ent with
          sources := updAssocSource ent.sources key init
            (fun src => { src with glas := addSet src.glas rel }) })) rel "disk" none) st2
    d.texFiles.foldl (fun s rel => add_texture s rel "disk" none) st3

/-- The loose-texture phase of `build_index` (`<base>/textures` tree). -/
def scanLooseTextures (st : IndexState) (texs : List String) : IndexState :=
  texs.foldl (fun s rel => add_texture s rel "disk" none) st

/-- The filesystem snapshot consumed by one `build_index` run. -/
structure Snapshot where
  pk3s : List Pk3File
  modelDirs : List DiskModelDir
  looseTextures : List String
deriving DecidableEq, Repr

/-- `src.container and src.container.name.lower() == "assets1.pk3"`. -/
def isPreferredArchive (src : ModelSource) : Bool :=
  match src.container with
  | some c => lowerStr (pathName c) == "assets1.pk3"
  | none => false

/-- `source_priority` from `index.py`. -/
def source_priority (src : ModelSource) : Nat × Nat :=
  if src.origin = "disk" then (0, 0)
  else if isPreferredArchive src then (1, 0)
  else (1, 1)

/-- Lexicographic comparison of `source_priority` tuples (Python tuple `<=`),
the key order of `sorted(glm_sources, key=source_priority)`. -/
def prioLe (a b : ModelSource) : Bool :=
  Nat.blt (source_priority a).1 (source_priority b).1
    || (Nat.beq (source_priority a).1 (source_priority b).1
        && Nat.ble (source_priority a).2 (source_priority b).2)

/-- The priority class of a source as named by the spec:
on-disk `0` < preferred archive (`assets1.pk3`) `1` < other archives `2`. -/
def prioClass (s : ModelSource) : Nat :=
  if s.origin = "disk" then 0
  else if isPreferredArchive s then 1
  else 2

/-- Stable insertion of `x` into a sorted list: `x` goes in front of the
first element `y` with `le x y` (so in front of later equal-key elements,
behind earlier ones). -/
def insertStable {α : Type} (le : α → α → Bool) (x : α) : List α → List α
  | [] => [x]
  | y :: ys => if le x y then x :: y :: ys else y :: insertStable le x ys

/-- Stable sort by a boolean comparison.  Python's `sorted` is a stable
sort; for a total preorder any two stable sorts agree element-for-element,
so this structural insertion sort is the same list-level function (chosen
over `List.mergeSort` because the kernel can evaluate it). -/
def sortStable {α : Type} (le : α → α → Bool) (l : List α) : List α :=
  l.foldr (insertStable le) []

/-- Code-point lexicographic `≤` on character lists (Python string order). -/
def charListLe : List Char → List Char → Bool
  | [], _ => true
  | _ :: _, [] => false
  | a :: as, b :: bs => if a = b then charListLe as bs else decide (a < b)

/-- The sort key order of the per-model skin list:
`key=lambda p: p.as_posix().lower()`. -/
def skinLe (a b : String) : Bool :=
  charListLe (lowerStr (asPosix a)).data (lowerStr (asPosix b)).data

/-- One value of the final `models` dict. -/
structure ModelOut where
  sources : List ModelSource
  primary : ModelSource
  skins : List String
deriving DecidableEq, Repr

/-- `{Path(s) for src in sources_list for s in src.skins}` as a dedup list. -/
def unionSkins (sources : List ModelSource) : List String :=
  sources.foldl (fun l src => src.skins.foldl addSet l) []

/-- The final per-model assembly of `build_index`: discard sources without a
primary model file, take the head of the stable priority sort as primary,
and sort the unioned skin list. -/
def mkModelOut (ent : MEntry) : Option ModelOut :=
  let sources_list := ent.sources.map (fun e => e.2)
  let glm_sources := sources_list.filter (fun s => s.glm.isSome)
  match (sortStable prioLe glm_sources).head? with
  | none => none
  | some primary =>
      some ⟨sources_list, primary, sortStable skinLe (unionSkins sources_list)⟩

/-- The final `models` dict (insertion order of `models_tmp`, skipping
entries without a model file). -/
def assembleModels (st : IndexState) : List (String × ModelOut) :=
  st.models_tmp.filterMap (fun e => (mkModelOut e.2).map (fun out => (e.1, out)))

/-- The dict returned by `build_index` (minus the `base` path itself). -/
structure BuiltIndex where
  models : List (String × ModelOut)
  textures_by_rel : List (String × List FileSource)
  textures_by_stem : List (String × List FileSource)
  gla_index : List (String × List FileSource)
deriving DecidableEq, Repr

/-- `build_index` from `index.py` over a snapshot. -/
def build_index (snap : Snapshot) : BuiltIndex :=
  let st1 := scanArchives {} snap.pk3s
  let st2 := snap.modelDirs.foldl diskDirStep st1
  let st3 := scanLooseTextures st2 snap.looseTextures
  ⟨assembleModels st3, st3.textures_by_rel, st3.textures_by_stem, st3.gla_index⟩

/-- `index["models"].get(name)`. -/
def findModel (bi : BuiltIndex) (n : String) : Option ModelOut :=
  (bi.models.find? (fun e => e.1 == n)).map (fun e => e.2)

/-- `models_tmp` lookup by model name. -/
def lookupEntry (st : IndexState) (n : String) : Option MEntry :=
  (st.models_tmp.find? (fun e => e.1 == n)).map (fun e => e.2)

/-- `ensure_index` from `index.py`: the global cache is a `(base, index)`
pair; a missing (`not base_dir`) or non-existent base directory clears the
cache and yields no index (`RootNotFound` surfaces as a `None` result).
Returns `(result, new cache)`. -/
def ensure_index (cache : Option (String × BuiltIndex)) (base_dir : String)
    (dirExists : Bool) (snap : Snapshot) :
    Option BuiltIndex × Option (String × BuiltIndex) :=
  if base_dir = "" ∨ dirExists = false then (none, none)
  else
    match cache with
    | some (b, idx) =>
        if b = base_dir then (some idx, some (b, idx))
        else (some (build_index snap), some (base_dir, build_index snap))
    | none => (some (build_index snap), some (base_dir, build_index snap))

/-! ## Skin resolution (`skin.py`) -/

/-- `choose` from `resolve_texture`: prefer a source from the primary's
archive, else an on-disk source, else the first candidate. -/
def choose (preferred : Option ModelSource) (fs_list : List FileSource) :
    Option FileSource :=
  let byArchive : Option FileSource :=
    match preferred with
    | some p =>
      match p.container with
      | some c => fs_list.find? (fun fs => fs.container == some c)
      | none => none
    | none => none
  match byArchive with
  | some fs => some fs
  | none =>
    match fs_list.find? (fun fs => fs.origin == "disk") with
    | some fs => some fs
    | none => fs_list.head?

/-- The extension loop of `resolve_texture`: `some r` means a normalized-path
table hit returned `r` (ending the search); `none` means no extension hit. -/
def resolveExtLoop (index : BuiltIndex) (tex_entry : String)
    (preferred : Option ModelSource) :
    List String → Option (Option (FileSource × String))
  | [] => none
  | ext :: rest =>
    let norm := normalize_rel '/' (withSuffix tex_entry ext)
    match lookupTab index.textures_by_rel norm with
    | some fs_list => some ((choose preferred fs_list).map (fun fs => (fs, fs.rel_path)))
    | none => resolveExtLoop index tex_entry preferred rest

/-- `resolve_texture` from `skin.py`. -/
def resolve_texture (index : BuiltIndex) (tex_entry : String)
    (preferred : Option ModelSource) : Option (FileSource × String) :=
  match resolveExtLoop index tex_entry preferred TEXTURE_EXTS with
  | some r => r
  | none =>
    match lookupTab index.textures_by_stem (lowerStr (pathStem tex_entry)) with
    | some fs_list => (choose preferred fs_list).map (fun fs => (fs, fs.rel_path))
    | none => none

/-- `resolve_gla` from `skin.py`. -/
def resolve_gla (index : BuiltIndex) (rel_path : String) : Option FileSource :=
  match lookupTab index.gla_index (normalize_rel '/' rel_path) with
  | some lst => lst.head?
  | none => none

/-- The three fixed fallback skeleton paths tried by `find_gla`, in order. -/
def glaCandidates (model_name : String) : List String :=
  ["models/players/" ++ model_name ++ "/" ++ model_name ++ ".gla",
   "models/players/" ++ model_name ++ "/model.gla",
   "models/players/_humanoid/_humanoid.gla"]

/-- `find_gla` from `skin.py`. -/
def find_gla (index : BuiltIndex) (model_name : String) (entry : ModelOut) :
    Option FileSource :=
  match entry.sources.findSome? (fun src => src.glas.findSome? (fun g => resolve_gla index g)) with
  | some r => some r
  | none => (glaCandidates model_name).findSome? (fun c => resolve_gla index c)

/-- `find_skin_source` from `skin.py`. -/
def find_skin_source (entry : ModelOut) (skin_rel : String) : Option FileSource :=
  entry.sources.findSome? (fun src =>
    (src.skins.find? (fun c => normalize_rel '/' c == normalize_rel '/' skin_rel)).map
      (fun c => FileSource.mk src.origin src.container c))

/-- The texture-resolution loop body of `collect_assets_for_skin`: appends
resolved textures, records missing references, and records a rename pair
exactly when the resolved relative path differs from the reference text. -/
def collectTexStep (index : BuiltIndex) (preferred : ModelSource)
    (acc : List (FileSource × String) × List String × List (String × String))
    (tex : String) :
    List (FileSource × String) × List String × List (String × String) :=
  match resolve_texture index tex (some preferred) with
  | some r =>
    if asPosix r.2 ≠ tex then (acc.1 ++ [r], acc.2.1, upsertMap acc.2.2 tex (asPosix r.2))
    else (acc.1 ++ [r], acc.2.1, acc.2.2)
  | none => (acc.1, acc.2.1 ++ [tex], acc.2.2)

/-- `collect_assets_for_skin` from `skin.py`; `readText` is the
filesystem/archive read oracle for skin file text.  (`primary.glm` is
always set for an assembled entry; the `getD` default is unreachable.) -/
def collect_assets_for_skin (index : BuiltIndex) (readText : FileSource → String)
    (model_name : String) (skin_rel : String) :
    Except String (List (FileSource × String) × List String × List (String × String)) :=
  match findModel index model_name with
  | none => Except.error "Model not found"
  | some entry =>
    match find_skin_source entry skin_rel with
    | none => Except.error "Skin file not found"
    | some skin_src =>
      let primary := entry.primary
      let glm_src : FileSource := ⟨primary.origin, primary.container, primary.glm.getD ""⟩
      let skin_map := parse_skin_text (readText skin_src)
      let res := (skin_map.map (fun e => e.2)).foldl (collectTexStep index primary) ([], [], [])
      let assets0 : List (FileSource × String) := [(glm_src, glm_src.rel_path), (skin_src, skin_rel)]
      let assets1 :=
        match find_gla index model_name entry with
        | some gla_src => assets0 ++ [(gla_src, gla_src.rel_path)]
        | none => assets0
      Except.ok (assets1 ++ res.1, res.2.1, res.2.2)

/-! ## Equivalences for the determinism claim (C9)

Two runs of `build_index` over the same unchanged tree see the same sorted
archive list, but the OS may enumerate the disk directories and files in
different orders.  `snapEquiv` captures exactly that: equal archives,
per-directory permuted file lists and a permuted directory list, permuted
loose textures.
-/

/-- Lift a relation to `Option`. -/
def optRel {α : Type} (R : α → α → Prop) : Option α → Option α → Prop
  | none, none => True
  | some a, some b => R a b
  | _, _ => False

/-- Source records that agree except for the identity of the chosen primary
model file and for set-iteration order. -/
def msEquiv (a b : ModelSource) : Prop :=
  a.origin = b.origin ∧ a.container = b.container ∧ a.glm.isSome = b.glm.isSome
    ∧ (∀ x, x ∈ a.skins ↔ x ∈ b.skins) ∧ (∀ x, x ∈ a.glas ↔ x ∈ b.glas)

/-- Entries with positionally matching source keys and equivalent records. -/
def entEquiv (a b : MEntry) : Prop :=
  List.Forall₂ (fun p q => p.1 = q.1 ∧ msEquiv p.2 q.2) a.sources b.sources
    ∧ (∀ x, x ∈ a.skins ↔ x ∈ b.skins)

/-- The same model directory seen under two enumeration orders. -/
def dirEquiv (d e : DiskModelDir) : Prop :=
  d.name = e.name ∧ d.glmFiles.Perm e.glmFiles ∧ d.skinFiles.Perm e.skinFiles
    ∧ d.glaFiles.Perm e.glaFiles ∧ d.texFiles.Perm e.texFiles

/-- The same unchanged tree seen by two `build_index` runs. -/
def snapEquiv (s t : Snapshot) : Prop :=
  s.pk3s = t.pk3s
    ∧ (∃ mid, s.modelDirs.Perm mid ∧ List.Forall₂ dirEquiv mid t.modelDirs)
    ∧ s.looseTextures.Perm t.looseTextures

/-- The composite effect of `diskDirStep` on the disk source record keyed by
the model directory (set `glm`, add all skin files, add all skeleton files). -/
def diskSrcFull (d : DiskModelDir) (g0 : String) (s : ModelSource) : ModelSource :=
  let glm_file := (d.glmFiles.find? (fun p => lowerStr (pathName p) == "model.glm")).getD g0
  d.glaFiles.foldl (fun s rel => { s with glas := addSet s.glas rel })
    (d.skinFiles.foldl (fun s rel => { s with skins := addSet s.skins rel })
      { s with glm := some glm_file })

/-- The effect of `diskDirStep` on the model entry named by the directory. -/
def diskEntryApply (d : DiskModelDir) (ent : MEntry) : MEntry :=
  match d.glmFiles with
  | [] => ent
  | g0 :: _ =>
    ⟨updAssocSource ent.sources (SourceKey.dirKey d.name) ⟨"disk", none, none, [], []⟩
       (diskSrcFull d g0),
     d.skinFiles.foldl addSet ent.skins⟩

/-- The entry produced at a directory's name given the entry before it. -/
def dirLookupResult (d : DiskModelDir) (prev : Option MEntry) : Option MEntry :=
  match d.glmFiles with
  | [] => prev
  | _ :: _ => some (diskEntryApply d (prev.getD {}))

/-! ## Theorems -/

theorem char_toNat_injective {c d : Char} (h : c.toNat = d.toNat) : c = d :=
  Char.ext (UInt32.ext h)

theorem char_toNat_toLower (c : Char) :
    (Char.toLower c).toNat = if 65 ≤ c.toNat ∧ c.toNat ≤ 90 then c.toNat + 32 else c.toNat := by
  rw [Char.toLower]
  by_cases h : 65 ≤ c.toNat ∧ c.toNat ≤ 90
  · have hv : (c.toNat + 32).isValidChar := Or.inl (by omega)
    rw [if_pos h, if_pos ⟨h.1, h.2⟩, Char.ofNat, dif_pos hv]
    rfl
  · rw [if_neg h, if_neg (by exact fun hc => h ⟨hc.1, hc.2⟩)]

theorem char_toLower_toLower (c : Char) : Char.toLower (Char.toLower c) = Char.toLower c := by
  apply char_toNat_injective
  have h1 := char_toNat_toLower c
  have h2 := char_toNat_toLower (Char.toLower c)
  by_cases hc : 65 ≤ c.toNat ∧ c.toNat ≤ 90
  · rw [if_pos hc] at h1
    rw [h1] at h2
    rw [if_neg (by omega)] at h2
    rw [h2, h1]
  · rw [if_neg hc] at h1
    rw [h1] at h2
    rw [if_neg hc] at h2
    rw [h2, h1]

theorem char_toLower_fix {d : Char} (hd : ¬(97 ≤ d.toNat ∧ d.toNat ≤ 122)) (c : Char)
    (h : Char.toLower c = d) : c = d := by
  have hh := char_toNat_toLower c
  rw [h] at hh
  by_cases hc : 65 ≤ c.toNat ∧ c.toNat ≤ 90
  · rw [if_pos hc] at hh
    exact absurd ⟨by omega, by omega⟩ hd
  · rw [if_neg hc] at hh
    exact char_toNat_injective hh.symm

theorem splitSepsAux_no_sep (sep : Char) (s : List Char) :
    ∀ acc, (∀ c ∈ s, isSepChar sep c = false) →
      splitSepsAux sep s acc = [acc.reverse ++ s] := by
  induction s with
  | nil => intro acc _; simp [splitSepsAux]
  | cons c cs ih =>
    intro acc hs
    have hc : isSepChar sep c = false := hs c (by simp)
    rw [splitSepsAux, if_neg (by simp [hc])]
    rw [ih (c :: acc) (fun d hd => hs d (by simp [hd]))]
    simp

theorem splitSepsAux_sep_append (sep : Char) (t : List Char) :
    ∀ acc w, (∀ c ∈ t, isSepChar sep c = false) →
      splitSepsAux sep (t ++ '/' :: w) acc = (acc.reverse ++ t) :: splitSepsAux sep w [] := by
  induction t with
  | nil =>
    intro acc w _
    rw [List.nil_append, splitSepsAux, if_pos (by simp [isSepChar])]
    simp
  | cons c cs ih =>
    intro acc w hs
    have hc : isSepChar sep c = false := hs c (by simp)
    rw [List.cons_append, splitSepsAux, if_neg (by simp [hc])]
    rw [ih (c :: acc) w (fun d hd => hs d (by simp [hd]))]
    simp

theorem mem_splitSepsAux_no_sep (sep : Char) (s : List Char) :
    ∀ acc t, (∀ c ∈ acc, isSepChar sep c = false) → t ∈ splitSepsAux sep s acc →
      ∀ c ∈ t, isSepChar sep c = false := by
  induction s with
  | nil =>
    intro acc t hacc ht c hc
    simp [splitSepsAux] at ht
    subst ht
    exact hacc c (by simpa using hc)
  | cons a as ih =>
    intro acc t hacc ht c hc
    by_cases ha : isSepChar sep a = true
    · rw [splitSepsAux, if_pos ha] at ht
      rcases List.mem_cons.mp ht with h | h
      · subst h; exact hacc c (by simpa using hc)
      · exact ih [] t (by simp) h c hc
    · rw [splitSepsAux, if_neg ha] at ht
      refine ih (a :: acc) t ?_ ht c hc
      intro d hd
      rcases List.mem_cons.mp hd with h | h
      · subst h; simpa using ha
      · exact hacc d h

theorem pathTokens_good (sep : Char) (s : List Char) :
    ∀ t ∈ pathTokens sep s, GoodTok sep t := by
  intro t ht
  rw [pathTokens] at ht
  have hmem := List.mem_of_mem_filter ht
  have hgood := List.of_mem_filter ht
  have hnosep := mem_splitSepsAux_no_sep sep s [] t (by simp) hmem
  refine ⟨?_, ?_, hnosep⟩
  · intro h; subst h; simp [goodTok] at hgood
  · intro h; subst h; simp [goodTok] at hgood

theorem renderTokens_cons2 (t u : List Char) (rest : List (List Char)) :
    renderTokens (t :: u :: rest) = t ++ '/' :: renderTokens (u :: rest) := rfl

theorem stripToks_cons (t : List Char) (r : List (List Char)) :
    stripToks (t :: r) =
      if (t.dropWhile stripChar).isEmpty then stripToks r else (t.dropWhile stripChar) :: r := rfl

theorem rawTokens_render (sep : Char) (ts : List (List Char))
    (h : ∀ t ∈ ts, ∀ c ∈ t, isSepChar sep c = false) :
    rawTokens sep (renderTokens ts) = if ts.isEmpty then [[]] else ts := by
  induction ts with
  | nil => simp [rawTokens, renderTokens, splitSepsAux]
  | cons t rest ih =>
    cases rest with
    | nil =>
      rw [show renderTokens [t] = t from rfl, rawTokens]
      rw [splitSepsAux_no_sep sep t [] (h t (by simp))]
      simp
    | cons u rest2 =>
      rw [renderTokens_cons2, rawTokens]
      rw [splitSepsAux_sep_append sep t [] _ (h t (by simp))]
      have hih := ih (fun v hv c hc => h v (by simp [hv]) c hc)
      rw [rawTokens] at hih
      rw [hih]
      rw [show (u :: rest2).isEmpty = false from rfl,
          show (t :: u :: rest2).isEmpty = false from rfl]
      simp

theorem pathTokens_render (sep : Char) (ts : List (List Char))
    (h : ∀ t ∈ ts, GoodTok sep t) :
    pathTokens sep (renderTokens ts) = ts := by
  rw [pathTokens, rawTokens_render sep ts (fun t ht => (h t ht).2.2)]
  by_cases he : ts.isEmpty
  · rw [if_pos he]
    cases ts with
    | nil => simp [goodTok]
    | cons a b => simp at he
  · rw [if_neg he]
    apply List.filter_eq_self.mpr
    intro t ht
    rcases h t ht with ⟨h1, h2, _⟩
    simp [goodTok]
    constructor
    · intro hh; exact h1 (by cases t with | nil => rfl | cons => simp at hh)
    · intro hh; exact h2 hh

theorem lowerChars_append (x y : List Char) :
    lowerChars (x ++ y) = lowerChars x ++ lowerChars y := by
  simp [lowerChars]

theorem lowerChars_renderTokens (ts : List (List Char)) :
    lowerChars (renderTokens ts) = renderTokens (ts.map lowerChars) := by
  induction ts with
  | nil => rfl
  | cons t rest ih =>
    cases rest with
    | nil => rfl
    | cons u rest2 =>
      rw [renderTokens_cons2, lowerChars_append,
          show lowerChars ('/' :: renderTokens (u :: rest2))
            = '/' :: lowerChars (renderTokens (u :: rest2)) from rfl, ih]
      rfl

theorem dropWhile_strip_render (ts : List (List Char)) :
    (renderTokens ts).dropWhile stripChar = renderTokens (stripToks ts) := by
  induction ts with
  | nil => rfl
  | cons t rest ih =>
    cases rest with
    | nil =>
      rw [show renderTokens [t] = t from rfl, stripToks_cons]
      by_cases he : (t.dropWhile stripChar).isEmpty
      · rw [if_pos he, show stripToks [] = [] from rfl,
            show renderTokens [] = [] from rfl]
        exact List.isEmpty_iff.mp he
      · rw [if_neg he, show renderTokens [t.dropWhile stripChar] = t.dropWhile stripChar from rfl]
    | cons u rest2 =>
      rw [renderTokens_cons2, stripToks_cons, List.dropWhile_append]
      by_cases he : (t.dropWhile stripChar).isEmpty
      · rw [if_pos he, if_pos he]
        rw [List.dropWhile_cons_of_pos (by simp [stripChar])]
        exact ih
      · rw [if_neg he, if_neg he, renderTokens_cons2]

theorem dropWhile_head_not {p : Char → Bool} : ∀ (l : List Char) {c rest},
    l.dropWhile p = c :: rest → p c = false := by
  intro l
  induction l with
  | nil => intro c rest h; simp [List.dropWhile] at h
  | cons a as ih =>
    intro c rest h
    rw [List.dropWhile_cons] at h
    by_cases ha : p a = true
    · rw [if_pos ha] at h; exact ih h
    · rw [if_neg ha] at h
      cases h
      simpa using ha

theorem normalizeChars_canon (sep : Char) (s : List Char) :
    normalizeChars sep s = renderTokens (stripToks ((pathTokens sep s).map lowerChars)) := by
  rw [normalizeChars]
  by_cases ha : isAbs sep s
  · rw [if_pos ha]
    rw [show (['/'] ++ renderTokens (pathTokens sep s))
          = '/' :: renderTokens (pathTokens sep s) from rfl]
    rw [show lowerChars ('/' :: renderTokens (pathTokens sep s))
          = '/' :: lowerChars (renderTokens (pathTokens sep s)) from rfl]
    rw [List.dropWhile_cons_of_pos (by simp [stripChar])]
    rw [lowerChars_renderTokens, dropWhile_strip_render]
  · rw [if_neg ha, List.nil_append, lowerChars_renderTokens, dropWhile_strip_render]

theorem sep_toLower_fix {sep : Char} (hsep : sep = '/' ∨ sep = '\\') (c : Char)
    (h : Char.toLower c = sep) : c = sep := by
  rcases hsep with rfl | rfl
  · exact char_toLower_fix (by decide) c h
  · exact char_toLower_fix (by decide) c h

theorem isSepChar_toLower {sep : Char} (hsep : sep = '/' ∨ sep = '\\') (c : Char) :
    isSepChar sep (Char.toLower c) = isSepChar sep c := by
  by_cases h : isSepChar sep c = true
  · rw [h]
    rcases (by simpa [isSepChar] using h : c = '/' ∨ c = sep) with rfl | rfl
    · rw [show Char.toLower '/' = '/' from rfl]; exact h
    · rcases hsep with rfl | rfl
      · rfl
      · rfl
  · rw [Bool.eq_false_iff.mpr h]
    by_cases h2 : isSepChar sep (Char.toLower c) = true
    · exfalso
      rcases (by simpa [isSepChar] using h2 : Char.toLower c = '/' ∨ Char.toLower c = sep) with hh | hh
      · exact h (by simp [isSepChar, char_toLower_fix (by decide) c hh])
      · exact h (by simp [isSepChar, sep_toLower_fix hsep c hh])
    · exact Bool.eq_false_iff.mpr h2

theorem splitSepsAux_lower {sep : Char} (hsep : sep = '/' ∨ sep = '\\') (s : List Char) :
    ∀ acc, splitSepsAux sep (lowerChars s) (lowerChars acc)
      = (splitSepsAux sep s acc).map lowerChars := by
  induction s with
  | nil => intro acc; simp [splitSepsAux, lowerChars]
  | cons c cs ih =>
    intro acc
    rw [show lowerChars (c :: cs) = Char.toLower c :: lowerChars cs from rfl]
    rw [splitSepsAux, splitSepsAux, isSepChar_toLower hsep]
    by_cases h : isSepChar sep c = true
    · rw [if_pos h, if_pos h]
      rw [show (lowerChars acc).reverse = lowerChars acc.reverse by simp [lowerChars]]
      rw [show ([] : List Char) = lowerChars [] from rfl, ih]
      rfl
    · rw [if_neg h, if_neg h]
      rw [show Char.toLower c :: lowerChars acc = lowerChars (c :: acc) from rfl, ih]

theorem lowerChars_eq_dot {t : List Char} : lowerChars t = ['.'] ↔ t = ['.'] := by
  constructor
  · intro h
    cases t with
    | nil => simp [lowerChars] at h
    | cons c rest =>
      cases rest with
      | nil =>
        rw [show lowerChars [c] = [Char.toLower c] from rfl] at h
        have := char_toLower_fix (d := '.') (by decide) c (by simpa using h)
        rw [this]
      | cons d rest2 => simp [lowerChars] at h
  · intro h; rw [h]; rfl

theorem goodTok_lower (t : List Char) : goodTok (lowerChars t) = goodTok t := by
  have h1 : (lowerChars t).isEmpty = t.isEmpty := by cases t <;> rfl
  have h2 : (lowerChars t == ['.']) = (t == ['.']) := by
    by_cases h : t = ['.']
    · subst h; rfl
    · have hne : ¬ lowerChars t = ['.'] := fun hh => h (lowerChars_eq_dot.mp hh)
      rw [show (lowerChars t == ['.']) = false by simpa using hne,
          show (t == ['.']) = false by simpa using h]
  rw [goodTok, goodTok, h1, h2]

theorem pathTokens_lower {sep : Char} (hsep : sep = '/' ∨ sep = '\\') (s : List Char) :
    pathTokens sep (lowerChars s) = (pathTokens sep s).map lowerChars := by
  rw [pathTokens, pathTokens, rawTokens, rawTokens]
  have hs : splitSepsAux sep (lowerChars s) [] = (splitSepsAux sep s []).map lowerChars := by
    have := splitSepsAux_lower hsep s []
    simpa [lowerChars] using this
  rw [hs]
  induction splitSepsAux sep s [] with
  | nil => rfl
  | cons t rest ih =>
    rw [List.map_cons, List.filter_cons, List.filter_cons, goodTok_lower]
    by_cases h : goodTok t = true
    · rw [if_pos h, if_pos h, List.map_cons, ih]
    · rw [if_neg h, if_neg h, ih]

theorem goodTok_lowerChars_of {sep : Char} (hsep : sep = '/' ∨ sep = '\\') {t : List Char}
    (h : GoodTok sep t) : GoodTok sep (lowerChars t) := by
  refine ⟨?_, ?_, ?_⟩
  · intro hh; exact h.1 (by cases t with | nil => rfl | cons => simp [lowerChars] at hh)
  · intro hh; exact h.2.1 (lowerChars_eq_dot.mp hh)
  · intro c hc
    rcases List.mem_map.mp hc with ⟨d, hd, rfl⟩
    rw [isSepChar_toLower hsep]
    exact h.2.2 d hd

theorem stripToks_good {sep : Char} : ∀ (ts : List (List Char)),
    (∀ t ∈ ts, GoodTok sep t) → ∀ u ∈ stripToks ts, GoodTok sep u := by
  intro ts
  induction ts with
  | nil => intro _ u hu; simp [stripToks] at hu
  | cons t r ih =>
    intro h u hu
    rw [stripToks_cons] at hu
    by_cases he : (t.dropWhile stripChar).isEmpty
    · rw [if_pos he] at hu
      exact ih (fun v hv => h v (by simp [hv])) u hu
    · rw [if_neg he] at hu
      rcases List.mem_cons.mp hu with rfl | hr
      · refine ⟨by simpa using he, ?_, ?_⟩
        · intro hd
          have := dropWhile_head_not t hd
          simp [stripChar] at this
        · intro c hc
          exact (h t (by simp)).2.2 c ((List.dropWhile_sublist stripChar).mem hc)
      · exact h u (by simp [hr])


theorem stripToks_headOk : ∀ (ts : List (List Char)), HeadOk (stripToks ts) := by
  intro ts
  induction ts with
  | nil => trivial
  | cons t r ih =>
    rw [stripToks_cons]
    by_cases he : (t.dropWhile stripChar).isEmpty
    · rw [if_pos he]; exact ih
    · rw [if_neg he]
      rcases hc : t.dropWhile stripChar with _ | ⟨c, rest⟩
      · rw [hc] at he; simp at he
      · show HeadOk ((c :: rest) :: r)
        show stripChar c = false
        exact dropWhile_head_not t hc

theorem lowerChars_idem (t : List Char) : lowerChars (lowerChars t) = lowerChars t := by
  simp [lowerChars, char_toLower_toLower]

theorem lowerChars_eq_self_of {t : List Char} (h : ∀ c ∈ t, Char.toLower c = c) :
    lowerChars t = t := by
  rw [lowerChars]
  conv_rhs => rw [← List.map_id t]
  exact List.map_congr_left h

theorem mem_of_lowerChars_eq_self : ∀ {t : List Char}, lowerChars t = t →
    ∀ c ∈ t, Char.toLower c = c := by
  intro t
  induction t with
  | nil => intro _ c hc; simp at hc
  | cons a as ih =>
    intro h c hc
    rw [show lowerChars (a :: as) = Char.toLower a :: lowerChars as from rfl] at h
    injection h with h1 h2
    rcases List.mem_cons.mp hc with rfl | hr
    · exact h1
    · exact ih h2 c hr

theorem stripToks_lowered : ∀ (ts : List (List Char)),
    (∀ t ∈ ts, lowerChars t = t) → ∀ u ∈ stripToks ts, lowerChars u = u := by
  intro ts
  induction ts with
  | nil => intro _ u hu; simp [stripToks] at hu
  | cons t r ih =>
    intro h u hu
    rw [stripToks_cons] at hu
    by_cases he : (t.dropWhile stripChar).isEmpty
    · rw [if_pos he] at hu
      exact ih (fun v hv => h v (by simp [hv])) u hu
    · rw [if_neg he] at hu
      rcases List.mem_cons.mp hu with rfl | hr
      · apply lowerChars_eq_self_of
        intro c hc
        have hmem : c ∈ t := (List.dropWhile_sublist stripChar).mem hc
        exact mem_of_lowerChars_eq_self (h t (by simp)) c hmem
      · exact h u (by simp [hr])

theorem stripToks_id : ∀ {ts : List (List Char)}, HeadOk ts → stripToks ts = ts := by
  intro ts h
  cases ts with
  | nil => rfl
  | cons u r =>
    cases u with
    | nil => exact absurd h (by simp [HeadOk])
    | cons c rest =>
      have hc : stripChar c = false := h
      rw [stripToks_cons, List.dropWhile_cons_of_neg (by simp [hc])]
      rw [if_neg (by simp)]

theorem lowerMap_self {us : List (List Char)} (h : ∀ u ∈ us, lowerChars u = u) :
    us.map lowerChars = us := by
  conv_rhs => rw [← List.map_id us]
  exact List.map_congr_left h

theorem normalizeChars_idem {sep : Char} (hsep : sep = '/' ∨ sep = '\\') (s : List Char) :
    normalizeChars sep (normalizeChars sep s) = normalizeChars sep s := by
  rw [normalizeChars_canon sep s]
  have hgood : ∀ t ∈ (pathTokens sep s).map lowerChars, GoodTok sep t := by
    intro t ht
    rcases List.mem_map.mp ht with ⟨v, hv, rfl⟩
    exact goodTok_lowerChars_of hsep (pathTokens_good sep s v hv)
  have hlow : ∀ t ∈ (pathTokens sep s).map lowerChars, lowerChars t = t := by
    intro t ht
    rcases List.mem_map.mp ht with ⟨v, hv, rfl⟩
    exact lowerChars_idem v
  have husgood := stripToks_good _ hgood
  have huslow := stripToks_lowered _ hlow
  rw [normalizeChars_canon sep (renderTokens (stripToks ((pathTokens sep s).map lowerChars)))]
  rw [pathTokens_render sep _ husgood]
  rw [lowerMap_self huslow]
  rw [stripToks_id (stripToks_headOk _)]

theorem normalizeChars_lower {sep : Char} (hsep : sep = '/' ∨ sep = '\\') (s : List Char) :
    normalizeChars sep (lowerChars s) = normalizeChars sep s := by
  rw [normalizeChars_canon, normalizeChars_canon, pathTokens_lower hsep, List.map_map]
  have : ((pathTokens sep s).map (lowerChars ∘ lowerChars)) = (pathTokens sep s).map lowerChars :=
    List.map_congr_left (fun t _ => lowerChars_idem t)
  rw [this]

theorem sepCollapse_slash_iff {sep c : Char} :
    sepCollapse sep c = '/' ↔ isSepChar sep c = true := by
  rw [sepCollapse, isSepChar]
  constructor
  · intro h
    by_cases hc : c = sep
    · simp [hc]
    · rw [if_neg hc] at h; simp [h]
  · intro h
    rcases (by simpa using h : c = '/' ∨ c = sep) with rfl | rfl
    · by_cases hc : '/' = sep
      · rw [if_pos hc]
      · rw [if_neg hc]
    · rw [if_pos rfl]

theorem splitSepsAux_collapse {sep : Char} : ∀ (x y acc : List Char),
    x.map (sepCollapse sep) = y.map (sepCollapse sep) →
    splitSepsAux sep x acc = splitSepsAux sep y acc := by
  intro x
  induction x with
  | nil =>
    intro y acc h
    cases y with
    | nil => rfl
    | cons d ds => simp at h
  | cons c cs ih =>
    intro y acc h
    cases y with
    | nil => simp at h
    | cons d ds =>
      rw [List.map_cons, List.map_cons] at h
      injection h with h1 h2
      rw [splitSepsAux, splitSepsAux]
      by_cases hc : isSepChar sep c = true
      · have hd : isSepChar sep d = true :=
          sepCollapse_slash_iff.mp (h1 ▸ sepCollapse_slash_iff.mpr hc)
        rw [if_pos hc, if_pos hd, ih ds [] h2]
      · have hd : isSepChar sep d = false := by
          by_cases hd2 : isSepChar sep d = true
          · exact absurd (sepCollapse_slash_iff.mp (h1.symm ▸ sepCollapse_slash_iff.mpr hd2))
              (fun hh => hc hh)
          · simpa using hd2
        have hcc : sepCollapse sep c = c := by
          rw [sepCollapse, if_neg (fun hh => by simp [isSepChar, hh] at hc)]
        have hdd : sepCollapse sep d = d := by
          rw [sepCollapse, if_neg (fun hh => by simp [isSepChar, hh] at hd)]
        have : c = d := by rw [← hcc, ← hdd, h1]
        subst this
        rw [if_neg (by simp [hc]), if_neg (by simp [hc])]
        exact ih ds (c :: acc) h2

theorem normalizeChars_collapse {sep : Char} (x y : List Char)
    (h : x.map (sepCollapse sep) = y.map (sepCollapse sep)) :
    normalizeChars sep x = normalizeChars sep y := by
  rw [normalizeChars_canon, normalizeChars_canon, pathTokens, pathTokens,
      rawTokens, rawTokens, splitSepsAux_collapse x y [] h]

/-- Claim C7: `normalize_rel` is idempotent, and it identifies paths differing
only in letter case or only in forward slash versus the platform separator. -/
theorem spec_C7 (sep : Char) (hsep : sep = '/' ∨ sep = '\\') (x y : String) :
    normalize_rel sep (normalize_rel sep x) = normalize_rel sep x
    ∧ (lowerStr x = lowerStr y → normalize_rel sep x = normalize_rel sep y)
    ∧ (x.data.map (sepCollapse sep) = y.data.map (sepCollapse sep) →
        normalize_rel sep x = normalize_rel sep y) := by
  refine ⟨?_, ?_, ?_⟩
  · show String.mk (normalizeChars sep (String.mk (normalizeChars sep x.data)).data)
        = String.mk (normalizeChars sep x.data)
    rw [show (String.mk (normalizeChars sep x.data)).data = normalizeChars sep x.data from rfl]
    rw [normalizeChars_idem hsep]
  · intro h
    have hd : lowerChars x.data = lowerChars y.data := congrArg String.data h
    show String.mk (normalizeChars sep x.data) = String.mk (normalizeChars sep y.data)
    rw [← normalizeChars_lower hsep x.data, ← normalizeChars_lower hsep y.data, hd]
  · intro h
    show String.mk (normalizeChars sep x.data) = String.mk (normalizeChars sep y.data)
    rw [normalizeChars_collapse x.data y.data h]

/-- Witness for C7 at concrete inputs (platform separator `'\\'`). -/
theorem spec_C7_witness :
    normalize_rel '\\' (normalize_rel '\\' "..\\Models//Players\\Reborn\\MODEL.GLM")
        = normalize_rel '\\' "..\\Models//Players\\Reborn\\MODEL.GLM"
    ∧ normalize_rel '\\' "MODELS\\X.PNG" = normalize_rel '\\' "models\\x.png"
    ∧ normalize_rel '\\' "a\\b/c" = normalize_rel '\\' "a/b\\c" :=
  ⟨(spec_C7 '\\' (Or.inr rfl) "..\\Models//Players\\Reborn\\MODEL.GLM" "").1,
   (spec_C7 '\\' (Or.inr rfl) "MODELS\\X.PNG" "models\\x.png").2.1 (by decide),
   (spec_C7 '\\' (Or.inr rfl) "a\\b/c" "a/b\\c").2.2 (by decide)⟩

theorem extractLoop_keep : ∀ (assets : List CAsset) (fs keep : Finset String)
    (tmap : List (String × String)) (failed : List String),
    (extractLoop assets fs keep tmap failed).2.1
      = assets.foldl (fun k a => insert (normCache a.dest) k) keep := by
  intro assets
  induction assets with
  | nil => intro fs keep tmap failed; rfl
  | cons a rest ih =>
    intro fs keep tmap failed
    rw [extractLoop, List.foldl_cons]
    by_cases h : a.ok
    · rw [if_pos h]
      exact ih _ _ _ _
    · rw [if_neg h]
      exact ih _ _ _ _

theorem extractLoop_files_sub : ∀ (assets : List CAsset) (fs keep : Finset String)
    (tmap : List (String × String)) (failed : List String),
    fs ⊆ (extractLoop assets fs keep tmap failed).1 := by
  intro assets
  induction assets with
  | nil => intro fs keep tmap failed; exact Finset.Subset.refl fs
  | cons a rest ih =>
    intro fs keep tmap failed
    rw [extractLoop]
    by_cases h : a.ok
    · rw [if_pos h]
      exact Finset.Subset.trans (Finset.subset_insert a.dest fs) (ih _ _ _ _)
    · rw [if_neg h]
      exact ih _ _ _ _

theorem extractLoop_ok : ∀ (assets : List CAsset) (fs keep : Finset String)
    (tmap : List (String × String)) (failed : List String),
    (∀ a ∈ assets, a.ok = true) →
    (extractLoop assets fs keep tmap failed).1
        = assets.foldl (fun s a => insert a.dest s) fs
    ∧ (extractLoop assets fs keep tmap failed).2.2.2 = failed := by
  intro assets
  induction assets with
  | nil => intro fs keep tmap failed _; exact ⟨rfl, rfl⟩
  | cons a rest ih =>
    intro fs keep tmap failed hok
    rw [extractLoop, if_pos (hok a (by simp)), List.foldl_cons]
    exact ih _ _ _ _ (fun b hb => hok b (by simp [hb]))

theorem mem_foldl_insert_norm (assets : List CAsset) :
    ∀ (k0 : Finset String) (x : String),
    (x ∈ assets.foldl (fun k a => insert (normCache a.dest) k) k0
      ↔ x ∈ k0 ∨ ∃ a ∈ assets, x = normCache a.dest) := by
  induction assets with
  | nil => intro k0 x; simp
  | cons a rest ih =>
    intro k0 x
    rw [List.foldl_cons, ih]
    simp [Finset.mem_insert]
    tauto

theorem mem_foldl_insert_dest (assets : List CAsset) :
    ∀ (s0 : Finset String) (x : String),
    (x ∈ assets.foldl (fun s a => insert a.dest s) s0
      ↔ x ∈ s0 ∨ ∃ a ∈ assets, x = a.dest) := by
  induction assets with
  | nil => intro s0 x; simp
  | cons a rest ih =>
    intro s0 x
    rw [List.foldl_cons, ih]
    simp [Finset.mem_insert]
    tauto

theorem foldl_insert_dest_id {assets : List CAsset} {s0 : Finset String}
    (h : ∀ a ∈ assets, a.dest ∈ s0) :
    assets.foldl (fun s a => insert a.dest s) s0 = s0 := by
  apply Finset.ext
  intro x
  rw [mem_foldl_insert_dest]
  constructor
  · intro hx
    rcases hx with hx | ⟨a, ha, rfl⟩
    · exact hx
    · exact h a ha
  · intro hx; exact Or.inl hx

/-- Claim C2: after `extract_assets` the cache holds exactly the files whose
normalized relative paths are in the keep set; a second run with the same
fully-resolvable asset list leaves the same file set and empty `failed`
both times. -/
theorem spec_C2 (fs0 : Finset String) (assets : List CAsset)
    (hok : ∀ a ∈ assets, a.ok = true) :
    (∀ p ∈ (extract_assets fs0 assets).1, normCache p ∈ keepSet assets)
    ∧ (∀ k ∈ keepSet assets, ∃ p ∈ (extract_assets fs0 assets).1, normCache p = k)
    ∧ (extract_assets (extract_assets fs0 assets).1 assets).1 = (extract_assets fs0 assets).1
    ∧ (extract_assets fs0 assets).2.2 = []
    ∧ (extract_assets (extract_assets fs0 assets).1 assets).2.2 = [] := by
  have hkeep : ∀ (fs : Finset String),
      (extractLoop assets fs ∅ [] []).2.1 = keepSet assets := by
    intro fs; rw [extractLoop_keep]; rfl
  have hfiles : ∀ (fs : Finset String),
      (extractLoop assets fs ∅ [] []).1 = assets.foldl (fun s a => insert a.dest s) fs :=
    fun fs => (extractLoop_ok assets fs ∅ [] [] hok).1
  have hfailed : ∀ (fs : Finset String),
      (extractLoop assets fs ∅ [] []).2.2.2 = [] :=
    fun fs => (extractLoop_ok assets fs ∅ [] [] hok).2
  have hr1 : (extract_assets fs0 assets).1
      = (assets.foldl (fun s a => insert a.dest s) fs0).filter
          (fun p => normCache p ∈ keepSet assets) := by
    rw [extract_assets]
    simp only [hkeep, hfiles]
    rfl
  refine ⟨?_, ?_, ?_, ?_, ?_⟩
  · intro p hp
    rw [hr1] at hp
    exact (Finset.mem_filter.mp hp).2
  · intro k hk
    rcases (mem_foldl_insert_norm assets ∅ k).mp hk with h0 | ⟨a, ha, rfl⟩
    · simp at h0
    · refine ⟨a.dest, ?_, rfl⟩
      rw [hr1]
      apply Finset.mem_filter.mpr
      constructor
      · rw [mem_foldl_insert_dest]
        exact Or.inr ⟨a, ha, rfl⟩
      · exact (mem_foldl_insert_norm assets ∅ (normCache a.dest)).mpr
          (Or.inr ⟨a, ha, rfl⟩)
  · have hdest : ∀ a ∈ assets, a.dest ∈ (extract_assets fs0 assets).1 := by
      intro a ha
      rw [hr1]
      apply Finset.mem_filter.mpr
      refine ⟨?_, ?_⟩
      · rw [mem_foldl_insert_dest]; exact Or.inr ⟨a, ha, rfl⟩
      · exact (mem_foldl_insert_norm assets ∅ (normCache a.dest)).mpr (Or.inr ⟨a, ha, rfl⟩)
    have hr2 : (extract_assets (extract_assets fs0 assets).1 assets).1
        = ((extract_assets fs0 assets).1).filter (fun p => normCache p ∈ keepSet assets) := by
      rw [extract_assets]
      simp only [hkeep, hfiles]
      rw [foldl_insert_dest_id hdest]
      rfl
    rw [hr2]
    apply Finset.filter_eq_self.mpr
    intro p hp
    rw [hr1] at hp
    exact (Finset.mem_filter.mp hp).2
  · rw [extract_assets]
    simp only [hfailed]
  · rw [extract_assets]
    simp only [hfailed]

/-- Claim C10: the keep set is extended before each copy attempt, so pruning
never deletes a pre-existing cache file sitting at (the normalization of)
any destination in the asset list, even one whose copy failed. -/
theorem spec_C10 (fs0 : Finset String) (assets : List CAsset) (p : String) (a : CAsset)
    (ha : a ∈ assets) (hp : p ∈ fs0) (hn : normCache p = normCache a.dest) :
    p ∈ (extract_assets fs0 assets).1 := by
  rw [extract_assets]
  apply Finset.mem_filter.mpr
  constructor
  · exact extractLoop_files_sub assets fs0 ∅ [] [] hp
  · rw [extractLoop_keep, hn]
    exact (mem_foldl_insert_norm assets ∅ (normCache a.dest)).mpr (Or.inr ⟨a, ha, rfl⟩)

/-- Claim C1 (code bug): the zip-slip guard is a raw string-prefix test, so a
member resolving to a sibling directory whose name extends the destination
root's name is extracted outside the root without any error; the claim's own
example `"../outside.txt"` does raise, but the universal guarantee fails. -/
theorem spec_C1_code_bug :
    safe_extract_members ["data", "cache"] [ZMember.mk "../cachex/evil.txt" false]
        = (Except.ok ["../cachex/evil.txt"], [["data", "cachex", "evil.txt"]])
    ∧ isUnderRoot ["data", "cache"] ["data", "cachex", "evil.txt"] = false
    ∧ (safe_extract_members ["data", "cache"] [ZMember.mk "../outside.txt" false]).1
        = Except.error "../outside.txt"
    ∧ (safe_extract_members ["data", "cache"] [ZMember.mk "../outside.txt" false]).2 = [] :=
  ⟨by rfl, by decide, by rfl, by rfl⟩

/-- Witness for C2 at a concrete cache and asset list. -/
theorem spec_C2_witness :
    (∀ p ∈ (extract_assets {"stale.png"} [CAsset.mk "Models/Players/Reborn/model.glm" true]).1,
        normCache p ∈ keepSet [CAsset.mk "Models/Players/Reborn/model.glm" true])
    ∧ (∀ k ∈ keepSet [CAsset.mk "Models/Players/Reborn/model.glm" true],
        ∃ p ∈ (extract_assets {"stale.png"} [CAsset.mk "Models/Players/Reborn/model.glm" true]).1,
          normCache p = k)
    ∧ (extract_assets
          (extract_assets {"stale.png"} [CAsset.mk "Models/Players/Reborn/model.glm" true]).1
          [CAsset.mk "Models/Players/Reborn/model.glm" true]).1
        = (extract_assets {"stale.png"} [CAsset.mk "Models/Players/Reborn/model.glm" true]).1
    ∧ (extract_assets {"stale.png"} [CAsset.mk "Models/Players/Reborn/model.glm" true]).2.2 = []
    ∧ (extract_assets
          (extract_assets {"stale.png"} [CAsset.mk "Models/Players/Reborn/model.glm" true]).1
          [CAsset.mk "Models/Players/Reborn/model.glm" true]).2.2 = [] :=
  spec_C2 {"stale.png"} [CAsset.mk "Models/Players/Reborn/model.glm" true] (by decide)

/-- Witness for C10: a pre-existing file at a failed copy's destination
(differing only in case) survives the prune. -/
theorem spec_C10_witness :
    "old.txt" ∈ (extract_assets {"old.txt"} [CAsset.mk "OLD.TXT" false]).1 :=
  spec_C10 {"old.txt"} [CAsset.mk "OLD.TXT" false] "old.txt" (CAsset.mk "OLD.TXT" false)
    (by decide) (by decide) (by decide)

theorem lookupMap_upsert (m : List (String × String)) (k v : String) :
    lookupMap (upsertMap m k v) k = some v := by
  induction m with
  | nil => simp [upsertMap, lookupMap]
  | cons e r ih =>
    rw [upsertMap]
    by_cases h : e.1 = k
    · rw [if_pos h]
      simp [lookupMap]
    · rw [if_neg h]
      rw [lookupMap, List.find?_cons_of_neg _ (by simpa using h)]
      exact ih

theorem lookupMap_upsert_ne (m : List (String × String)) (k v q : String) (h : q ≠ k) :
    lookupMap (upsertMap m k v) q = lookupMap m q := by
  induction m with
  | nil =>
    rw [upsertMap, lookupMap, lookupMap,
        List.find?_cons_of_neg _ (by simpa using fun hh : k = q => h hh.symm)]
  | cons e r ih =>
    rw [upsertMap]
    by_cases he : e.1 = k
    · rw [if_pos he]
      rw [lookupMap, lookupMap,
          List.find?_cons_of_neg _ (by simpa using fun hh : k = q => h hh.symm),
          List.find?_cons_of_neg _ (by simpa using fun hh : e.1 = q => h (he ▸ hh).symm)]
    · rw [if_neg he]
      by_cases hq : e.1 = q
      · rw [lookupMap, lookupMap, List.find?_cons_of_pos _ (by simpa using hq),
            List.find?_cons_of_pos _ (by simpa using hq)]
      · rw [lookupMap, lookupMap, List.find?_cons_of_neg _ (by simpa using hq),
            List.find?_cons_of_neg _ (by simpa using hq)]
        exact ih

/-- Claim C6: skin parsing skips blank lines and lines starting with `//`,
skips lines without a comma, splits the rest at the first comma, drops
`*off`/`off` (case-insensitive) texture bindings, lets later bindings
overwrite earlier ones; the spec's example input parses to exactly
`{"head": "model_blue.jpg"}`. -/
theorem spec_C6 (m : List (String × String)) (line : String) :
    parse_skin_text "head, model_blue.jpg\n// comment\ntorso,*off\n"
        = [("head", "model_blue.jpg")]
    ∧ (pystrip line = "" → processLine m line = m)
    ∧ (pyStartswith (pystrip line) "//" = true → processLine m line = m)
    ∧ ((pystrip line).data.contains ',' = false → processLine m line = m)
    ∧ (lowerStr (pystrip (splitFirstComma (pystrip line)).2) = "*off"
        ∨ lowerStr (pystrip (splitFirstComma (pystrip line)).2) = "off" →
        processLine m line = m)
    ∧ (∀ p t, p = pystrip (splitFirstComma (pystrip line)).1 →
        t = pystrip (splitFirstComma (pystrip line)).2 →
        pystrip line ≠ "" → pyStartswith (pystrip line) "//" = false →
        (pystrip line).data.contains ',' = true →
        lowerStr t ≠ "*off" → lowerStr t ≠ "off" → p ≠ "" →
        processLine m line = upsertMap m p t
          ∧ lookupMap (processLine m line) p = some t
          ∧ (∀ q, q ≠ p → lookupMap (processLine m line) q = lookupMap m q)) := by
  refine ⟨by decide, ?_, ?_, ?_, ?_, ?_⟩
  · intro h
    rw [processLine, if_pos (by simp [h])]
  · intro h
    rw [processLine, if_pos (by simp [h])]
  · intro h
    rw [processLine]
    by_cases h1 : (pystrip line == "" || pyStartswith (pystrip line) "//") = true
    · rw [if_pos h1]
    · rw [if_neg (by simpa using h1), if_pos (by simpa using h)]
  · intro h
    rw [processLine]
    by_cases h1 : (pystrip line == "" || pyStartswith (pystrip line) "//") = true
    · rw [if_pos h1]
    · rw [if_neg (by simpa using h1)]
      by_cases h2 : (!(pystrip line).data.contains ',') = true
      · rw [if_pos h2]
      · rw [if_neg (by simpa using h2)]
        rcases h with h | h
        · rw [if_pos (by simp [h])]
        · rw [if_pos (by simp [h])]
  · intro p t hp ht hblank hcomment hcomma hoff1 hoff2 hpne
    have hmain : processLine m line = upsertMap m p t := by
      rw [processLine]
      rw [if_neg (by simp [hblank, hcomment])]
      rw [if_neg (by simpa using hcomma)]
      rw [if_neg (by simp [← ht, hoff1, hoff2])]
      rw [if_pos (by simp [← hp, hpne])]
      rw [← hp, ← ht]
    refine ⟨hmain, ?_, ?_⟩
    · rw [hmain]; exact lookupMap_upsert m p t
    · intro q hq
      rw [hmain]; exact lookupMap_upsert_ne m p t q hq

/-- Witness for C6: concrete lines exercising the skip rules and the
overwrite rule. -/
theorem spec_C6_witness :
    processLine [("a", "b")] "   " = [("a", "b")]
    ∧ processLine [("a", "b")] "  // comment, with comma" = [("a", "b")]
    ∧ processLine [("a", "b")] "no separator here" = [("a", "b")]
    ∧ processLine [("a", "b")] "torso, *OFF" = [("a", "b")]
    ∧ lookupMap (processLine [("torso", "old.png")] "torso , caps.png") "torso"
        = some "caps.png" := by
  refine ⟨(spec_C6 [("a", "b")] "   ").2.1 (by decide),
    (spec_C6 [("a", "b")] "  // comment, with comma").2.2.1 (by decide),
    (spec_C6 [("a", "b")] "no separator here").2.2.2.1 (by decide),
    (spec_C6 [("a", "b")] "torso, *OFF").2.2.2.2.1 (by decide),
    ((spec_C6 [("torso", "old.png")] "torso , caps.png").2.2.2.2.2 "torso" "caps.png"
      (by decide) (by decide) (by decide) (by decide) (by decide) (by decide) (by decide)
      (by decide)).2.1⟩

theorem insertStable_perm {α : Type} (le : α → α → Bool) (x : α) :
    ∀ (l : List α), (insertStable le x l).Perm (x :: l) := by
  intro l
  induction l with
  | nil => exact List.Perm.refl _
  | cons y ys ih =>
    rw [insertStable]
    by_cases h : le x y = true
    · rw [if_pos h]
    · rw [if_neg h]
      exact (ih.cons y).trans (List.Perm.swap x y ys)

theorem sortStable_perm {α : Type} (le : α → α → Bool) :
    ∀ (l : List α), (sortStable le l).Perm l := by
  intro l
  induction l with
  | nil => exact List.Perm.refl _
  | cons a rest ih =>
    rw [sortStable, List.foldr_cons]
    exact (insertStable_perm le a _).trans (ih.cons a)

theorem insertStable_sorted {α : Type} {le : α → α → Bool}
    (htrans : ∀ a b c, le a b = true → le b c = true → le a c = true)
    (htotal : ∀ a b, (le a b || le b a) = true) (x : α) :
    ∀ {l : List α}, List.Pairwise (fun a b => le a b = true) l →
      List.Pairwise (fun a b => le a b = true) (insertStable le x l) := by
  intro l
  induction l with
  | nil => intro _; simp [insertStable]
  | cons y ys ih =>
    intro hp
    rcases List.pairwise_cons.mp hp with ⟨hy, hys⟩
    rw [insertStable]
    by_cases h : le x y = true
    · rw [if_pos h]
      refine List.pairwise_cons.mpr ⟨?_, hp⟩
      intro z hz
      rcases List.mem_cons.mp hz with rfl | hz2
      · exact h
      · exact htrans x y z h (hy z hz2)
    · rw [if_neg h]
      have hyx : le y x = true := by
        rcases Bool.or_eq_true_iff.mp (htotal x y) with hh | hh
        · exact absurd hh h
        · exact hh
      refine List.pairwise_cons.mpr ⟨?_, ih hys⟩
      intro z hz
      have hz2 := (insertStable_perm le x ys).mem_iff.mp hz
      rcases List.mem_cons.mp hz2 with rfl | hz3
      · exact hyx
      · exact hy z hz3

theorem sortStable_sorted {α : Type} {le : α → α → Bool}
    (htrans : ∀ a b c, le a b = true → le b c = true → le a c = true)
    (htotal : ∀ a b, (le a b || le b a) = true) :
    ∀ (l : List α), List.Pairwise (fun a b => le a b = true) (sortStable le l) := by
  intro l
  induction l with
  | nil => simp [sortStable]
  | cons a rest ih =>
    rw [sortStable, List.foldr_cons]
    exact insertStable_sorted htrans htotal a ih

theorem sp_cases (s : ModelSource) :
    (source_priority s = (0, 0) ∧ prioClass s = 0)
    ∨ (source_priority s = (1, 0) ∧ prioClass s = 1)
    ∨ (source_priority s = (1, 1) ∧ prioClass s = 2) := by
  rw [source_priority, prioClass]
  by_cases h1 : s.origin = "disk"
  · rw [if_pos h1, if_pos h1]
    exact Or.inl ⟨rfl, rfl⟩
  · rw [if_neg h1, if_neg h1]
    by_cases h2 : isPreferredArchive s = true
    · rw [if_pos h2, if_pos h2]
      exact Or.inr (Or.inl ⟨rfl, rfl⟩)
    · rw [if_neg h2, if_neg h2]
      exact Or.inr (Or.inr ⟨rfl, rfl⟩)

theorem prioLe_class (a b : ModelSource) : prioLe a b = true ↔ prioClass a ≤ prioClass b := by
  rcases sp_cases a with ⟨ha1, ha2⟩ | ⟨ha1, ha2⟩ | ⟨ha1, ha2⟩ <;>
    rcases sp_cases b with ⟨hb1, hb2⟩ | ⟨hb1, hb2⟩ | ⟨hb1, hb2⟩ <;>
    rw [prioLe, ha1, hb1, ha2, hb2] <;> decide

theorem prioLe_total (a b : ModelSource) : (prioLe a b || prioLe b a) = true := by
  rcases sp_cases a with ⟨ha1, _⟩ | ⟨ha1, _⟩ | ⟨ha1, _⟩ <;>
    rcases sp_cases b with ⟨hb1, _⟩ | ⟨hb1, _⟩ | ⟨hb1, _⟩ <;>
    rw [prioLe, prioLe, ha1, hb1] <;> decide

theorem prioLe_trans (a b c : ModelSource) (h1 : prioLe a b = true) (h2 : prioLe b c = true) :
    prioLe a c = true := by
  rw [prioLe_class] at h1 h2 ⊢
  omega

theorem prioClass_eq_zero {s : ModelSource} (h : prioClass s = 0) : s.origin = "disk" := by
  by_cases hd : s.origin = "disk"
  · exact hd
  · rw [prioClass, if_neg hd] at h
    by_cases h2 : isPreferredArchive s = true
    · rw [if_pos h2] at h; exact absurd h (by decide)
    · rw [if_neg h2] at h; exact absurd h (by decide)

theorem head_sortStable_min {l : List ModelSource} {m : ModelSource}
    (h : (sortStable prioLe l).head? = some m) :
    m ∈ l ∧ ∀ x ∈ l, prioLe m x = true := by
  have hperm := sortStable_perm prioLe l
  have hsorted := sortStable_sorted prioLe_trans prioLe_total l
  rcases hsort : sortStable prioLe l with _ | ⟨m2, rest⟩
  · rw [hsort] at h; simp at h
  · rw [hsort] at h
    have hm2 : m2 = m := by simpa using h
    subst hm2
    rw [hsort] at hperm hsorted
    constructor
    · exact hperm.mem_iff.mp (by simp)
    · intro x hx
      rcases List.mem_cons.mp (hperm.mem_iff.mpr hx) with rfl | hx2
      · have := prioLe_total x x
        rcases Bool.or_eq_true_iff.mp this with hh | hh <;> exact hh
      · exact (List.pairwise_cons.mp hsorted).1 x hx2

theorem mkModelOut_spec {ent : MEntry} {m : ModelOut} (h : mkModelOut ent = some m) :
    m.sources = ent.sources.map (fun e => e.2)
    ∧ (sortStable prioLe (m.sources.filter (fun s => s.glm.isSome))).head? = some m.primary
    ∧ m.skins = sortStable skinLe (unionSkins m.sources) := by
  rw [mkModelOut] at h
  rcases hh : (sortStable prioLe ((ent.sources.map (fun e => e.2)).filter
      (fun s => s.glm.isSome))).head? with _ | p
  · rw [hh] at h; exact absurd h (by simp)
  · rw [hh] at h
    have hm : m = ⟨ent.sources.map (fun e => e.2), p,
        sortStable skinLe (unionSkins (ent.sources.map (fun e => e.2)))⟩ := by
      simpa using h.symm
    subst hm
    exact ⟨rfl, by rw [hh], rfl⟩

theorem findModel_spec {bi : BuiltIndex} {n : String} {m : ModelOut}
    (hbi : ∃ st, bi.models = assembleModels st)
    (h : findModel bi n = some m) :
    ∃ ent, mkModelOut ent = some m := by
  rcases hbi with ⟨st, hst⟩
  rw [findModel] at h
  rcases hfind : bi.models.find? (fun e => e.1 == n) with _ | e
  · rw [hfind] at h; exact absurd h (by simp)
  · rw [hfind] at h
    have he : e.2 = m := by simpa using h
    have hmem := List.mem_of_find?_eq_some hfind
    rw [hst, assembleModels] at hmem
    rcases List.mem_filterMap.mp hmem with ⟨ent, _, hout⟩
    rcases hh : mkModelOut ent.2 with _ | out
    · rw [hh] at hout; simp at hout
    · rw [hh] at hout
      simp at hout
      rw [← hout] at he
      exact ⟨ent.2, by rw [hh]; exact congrArg some he⟩

/-- Claim C3: for every model name in the built index, the primary source is
a glm-bearing source of minimal priority under the tuple-ordered
`source_priority` (on-disk `(0,0)` < preferred archive `assets1.pk3` `(1,0)`
< other archives `(1,1)`, so also minimal in the spec's class numbering
0 < 1 < 2); when a unique on-disk glm source exists it is therefore always
the one selected; and the three class values are strictly ordered. -/
theorem spec_C3 (snap : Snapshot) (name : String) (m : ModelOut)
    (hm : findModel (build_index snap) name = some m) :
    m.primary ∈ m.sources
    ∧ m.primary.glm.isSome = true
    ∧ (∀ t ∈ m.sources, t.glm.isSome = true → prioLe m.primary t = true)
    ∧ (∀ t ∈ m.sources, t.glm.isSome = true → prioClass m.primary ≤ prioClass t)
    ∧ (∀ s ∈ m.sources, s.origin = "disk" → s.glm.isSome = true →
        (∀ t ∈ m.sources, t.origin = "disk" → t = s) → m.primary = s)
    ∧ (∀ d p q : ModelSource, d.origin = "disk" →
        p.origin ≠ "disk" → isPreferredArchive p = true →
        q.origin ≠ "disk" → isPreferredArchive q = false →
        prioClass d < prioClass p ∧ prioClass p < prioClass q) := by
  rcases findModel_spec ⟨_, rfl⟩ hm with ⟨ent, hent⟩
  rcases mkModelOut_spec hent with ⟨_, hhead, _⟩
  rcases head_sortStable_min hhead with ⟨hpmem, hpmin⟩
  have hpsrc : m.primary ∈ m.sources := List.mem_of_mem_filter hpmem
  have hpglm : m.primary.glm.isSome = true := by simpa using List.of_mem_filter hpmem
  have hmin : ∀ t ∈ m.sources, t.glm.isSome = true → prioLe m.primary t = true := by
    intro t ht htg
    exact hpmin t (List.mem_filter.mpr ⟨ht, by simpa using htg⟩)
  refine ⟨hpsrc, hpglm, hmin, ?_, ?_, ?_⟩
  · intro t ht htg
    exact (prioLe_class _ _).mp (hmin t ht htg)
  · intro s hs hdisk hglm huniq
    by_cases hpd : m.primary.origin = "disk"
    · exact huniq m.primary hpsrc hpd
    · exfalso
      have hcls : prioClass m.primary ≤ prioClass s :=
        (prioLe_class _ _).mp (hmin s hs hglm)
      have hs0 : prioClass s = 0 := by rw [prioClass, if_pos hdisk]
      have : prioClass m.primary = 0 := by omega
      exact hpd (prioClass_eq_zero this)
  · intro d p q hd hpnd hppref hqnd hqpref
    constructor
    · rw [prioClass, if_pos hd, prioClass, if_neg hpnd, if_pos hppref]
      omega
    · rw [prioClass, if_neg hpnd, if_pos hppref, prioClass, if_neg hqnd,
          if_neg (by simp [hqpref])]
      omega

def c3snap : Snapshot :=
  ⟨[⟨"/base/assets1.pk3", true,
     [⟨"models/players/reborn/model.glm", false⟩,
      ⟨"models/players/jan/model.glm", false⟩]⟩,
    ⟨"/base/zz.pk3", true,
     [⟨"models/players/reborn/model.glm", false⟩,
      ⟨"models/players/jan/model.glm", false⟩]⟩],
   [⟨"reborn", ["models/players/reborn/model.glm"], [], [], []⟩],
   []⟩

def c3disk : ModelSource := ⟨"disk", none, some "models/players/reborn/model.glm", [], []⟩

def c3model : ModelOut :=
  ⟨[⟨"pk3", some "/base/assets1.pk3", some "models/players/reborn/model.glm", [], []⟩,
    ⟨"pk3", some "/base/zz.pk3", some "models/players/reborn/model.glm", [], []⟩,
    c3disk],
   c3disk, []⟩

def c3janZZ : ModelSource :=
  ⟨"pk3", some "/base/zz.pk3", some "models/players/jan/model.glm", [], []⟩

def c3jan : ModelOut :=
  ⟨[⟨"pk3", some "/base/assets1.pk3", some "models/players/jan/model.glm", [], []⟩,
    c3janZZ],
   ⟨"pk3", some "/base/assets1.pk3", some "models/players/jan/model.glm", [], []⟩, []⟩

/-- Witness for C3: a model present on disk and in two archives (one the
preferred `assets1.pk3`) resolves to the on-disk source, and for an
archive-only model the primary is the preferred-archive source (class 1,
no worse than the other archive's class). -/
theorem spec_C3_witness :
    (findModel (build_index c3snap) "reborn" = some c3model ∧ c3model.primary = c3disk)
    ∧ (findModel (build_index c3snap) "jan" = some c3jan
       ∧ prioClass c3jan.primary = 1
       ∧ c3janZZ ∈ c3jan.sources
       ∧ prioClass c3jan.primary ≤ prioClass c3janZZ) :=
  ⟨⟨by decide,
    (spec_C3 c3snap "reborn" c3model (by decide)).2.2.2.2.1 c3disk (by decide) rfl rfl
      (by decide)⟩,
   by decide, by decide, by decide,
   (spec_C3 c3snap "jan" c3jan (by decide)).2.2.2.1 c3janZZ (by decide) rfl⟩

/-- Claim C5: a missing or non-existent scan root is fatal to the whole
build (`ensure_index` clears the cache and produces no index), while a
corrupt archive is skipped without affecting the rest of the build. -/
theorem spec_C5 :
    (∀ cache base_dir snap, ensure_index cache base_dir false snap = (none, none))
    ∧ (∀ cache snap, ensure_index cache "" true snap = (none, none))
    ∧ (∀ st pre post p es,
        scanArchives st (pre ++ Pk3File.mk p false es :: post) = scanArchives st (pre ++ post))
    ∧ (∀ pre post p es dirs loose,
        build_index ⟨pre ++ Pk3File.mk p false es :: post, dirs, loose⟩
          = build_index ⟨pre ++ post, dirs, loose⟩) := by
  have harch : ∀ st pre post p es,
      scanArchives st (pre ++ Pk3File.mk p false es :: post) = scanArchives st (pre ++ post) := by
    intro st pre post p es
    rw [scanArchives, scanArchives, List.foldl_append, List.foldl_append, List.foldl_cons]
    congr 1
  refine ⟨?_, ?_, harch, ?_⟩
  · intro cache base snap
    unfold ensure_index
    rw [if_pos (Or.inr rfl)]
  · intro cache snap
    unfold ensure_index
    rw [if_pos (Or.inl rfl)]
  · intro pre post p es dirs loose
    rw [build_index, build_index]
    rw [show (Snapshot.mk (pre ++ Pk3File.mk p false es :: post) dirs loose).pk3s
          = pre ++ Pk3File.mk p false es :: post from rfl]
    rw [harch]

theorem resolveExtLoop_eq (index : BuiltIndex) (tex : String) (pref : Option ModelSource) :
    ∀ exts, resolveExtLoop index tex pref exts =
      (exts.find? (fun ext => (lookupTab index.textures_by_rel
          (normalize_rel '/' (withSuffix tex ext))).isSome)).map
        (fun ext => (choose pref ((lookupTab index.textures_by_rel
          (normalize_rel '/' (withSuffix tex ext))).getD [])).map (fun fs => (fs, fs.rel_path))) := by
  intro exts
  induction exts with
  | nil => rfl
  | cons ext rest ih =>
    rw [resolveExtLoop, List.find?_cons]
    rcases hl : lookupTab index.textures_by_rel (normalize_rel '/' (withSuffix tex ext))
      with _ | fs_list
    · simpa using ih
    · simp [hl]

def c4fs : FileSource := ⟨"disk", none, "anything/x.png"⟩

def c4index : BuiltIndex :=
  ⟨[], [("anything/x.png", [c4fs])], [("x", [c4fs])], []⟩

def c4pref : ModelSource := ⟨"pk3", some "/base/assets1.pk3", none, [], []⟩

/-- Claim C4: texture resolution tries each supported extension in order
against the normalized-path table and falls back to a lower-cased stem
lookup only when no extension matches; a rename pair is recorded exactly
when the resolved relative path differs from the reference text, as in the
example `"textures/x" -> "anything/x.png"`. -/
theorem spec_C4 :
    (∀ index tex pref, resolve_texture index tex pref =
      match TEXTURE_EXTS.find? (fun ext => (lookupTab index.textures_by_rel
          (normalize_rel '/' (withSuffix tex ext))).isSome) with
      | some ext => (choose pref ((lookupTab index.textures_by_rel
          (normalize_rel '/' (withSuffix tex ext))).getD [])).map (fun fs => (fs, fs.rel_path))
      | none =>
        match lookupTab index.textures_by_stem (lowerStr (pathStem tex)) with
        | some fs_list => (choose pref fs_list).map (fun fs => (fs, fs.rel_path))
        | none => none)
    ∧ (∀ index pref tex r, resolve_texture index tex (some pref) = some r →
        [tex].foldl (collectTexStep index pref) ([], [], [])
          = ([r], [], if asPosix r.2 ≠ tex then [(tex, asPosix r.2)] else []))
    ∧ (∀ index pref tex, resolve_texture index tex (some pref) = none →
        [tex].foldl (collectTexStep index pref) ([], [], []) = ([], [tex], []))
    ∧ resolve_texture c4index "textures/x" none = some (c4fs, "anything/x.png")
    ∧ ([("textures/x" : String)].foldl (collectTexStep c4index c4pref) ([], [], [])).2.2
        = [("textures/x", "anything/x.png")] := by
  refine ⟨?_, ?_, ?_, by decide, by decide⟩
  · intro index tex pref
    rw [resolve_texture, resolveExtLoop_eq]
    rcases hf : TEXTURE_EXTS.find? (fun ext => (lookupTab index.textures_by_rel
        (normalize_rel '/' (withSuffix tex ext))).isSome) with _ | ext
    · rfl
    · rfl
  · intro index pref tex r h
    rw [List.foldl_cons, List.foldl_nil, collectTexStep, h]
    by_cases hne : asPosix r.2 ≠ tex
    · simp [hne, upsertMap]
    · simp [hne]
  · intro index pref tex h
    rw [List.foldl_cons, List.foldl_nil, collectTexStep, h]
    rfl

/-- Witness for C4: the stem-fallback example records its rename pair, and
an unresolvable reference is recorded as missing. -/
theorem spec_C4_witness :
    ([("textures/x" : String)].foldl (collectTexStep c4index c4pref) ([], [], [])
        = ([(c4fs, "anything/x.png")], [], [("textures/x", "anything/x.png")]))
    ∧ ([("zzz" : String)].foldl (collectTexStep c4index c4pref) ([], [], [])
        = ([], ["zzz"], [])) := by
  constructor
  · have h := spec_C4.2.1 c4index c4pref "textures/x" (c4fs, "anything/x.png") (by decide)
    rw [h]
    decide
  · exact spec_C4.2.2.1 c4index c4pref "zzz" (by decide)

theorem findSome?_isSome_of_mem {α β : Type} {f : α → Option β} {l : List α} {a : α}
    (ha : a ∈ l) (hf : (f a).isSome = true) : (l.findSome? f).isSome = true := by
  induction l with
  | nil => simp at ha
  | cons x xs ih =>
    rw [List.findSome?_cons]
    rcases hx : f x with _ | b
    · rcases List.mem_cons.mp ha with rfl | ha2
      · rw [hx] at hf; simp at hf
      · exact ih ha2
    · rfl

/-- Claim C8: skeleton resolution first looks for a resolvable skeleton
reference among the entry's own sources; failing that it tries exactly the
three fixed candidate paths in order, taking the first index hit; if
nothing resolves, no skeleton is added and the resolution still succeeds. -/
theorem spec_C8 (index : BuiltIndex) (name : String) (entry : ModelOut)
    (readText : FileSource → String) (skin_rel : String) :
    ((∃ src ∈ entry.sources, ∃ g ∈ src.glas, (resolve_gla index g).isSome = true) →
      ∃ src ∈ entry.sources, ∃ g ∈ src.glas,
        (resolve_gla index g).isSome = true ∧ find_gla index name entry = resolve_gla index g)
    ∧ ((∀ src ∈ entry.sources, ∀ g ∈ src.glas, resolve_gla index g = none) →
        find_gla index name entry
          = (glaCandidates name).findSome? (fun c => resolve_gla index c))
    ∧ glaCandidates name
        = ["models/players/" ++ name ++ "/" ++ name ++ ".gla",
           "models/players/" ++ name ++ "/model.gla",
           "models/players/_humanoid/_humanoid.gla"]
    ∧ (∀ ssrc, findModel index name = some entry →
        find_skin_source entry skin_rel = some ssrc →
        find_gla index name entry = none →
        collect_assets_for_skin index readText name skin_rel
          = Except.ok
              ([(⟨entry.primary.origin, entry.primary.container, entry.primary.glm.getD ""⟩,
                 entry.primary.glm.getD ""), (ssrc, skin_rel)]
                 ++ (((parse_skin_text (readText ssrc)).map (fun e => e.2)).foldl
                      (collectTexStep index entry.primary) ([], [], [])).1,
               (((parse_skin_text (readText ssrc)).map (fun e => e.2)).foldl
                  (collectTexStep index entry.primary) ([], [], [])).2.1,
               (((parse_skin_text (readText ssrc)).map (fun e => e.2)).foldl
                  (collectTexStep index entry.primary) ([], [], [])).2.2)) := by
  refine ⟨?_, ?_, rfl, ?_⟩
  · intro h
    rcases h with ⟨src, hsrc, g, hg, hres⟩
    have hinner : (src.glas.findSome? (fun g => resolve_gla index g)).isSome = true :=
      findSome?_isSome_of_mem hg hres
    have houter : (entry.sources.findSome?
        (fun src => src.glas.findSome? (fun g => resolve_gla index g))).isSome = true :=
      findSome?_isSome_of_mem hsrc hinner
    rcases ho : entry.sources.findSome?
        (fun src => src.glas.findSome? (fun g => resolve_gla index g)) with _ | r
    · rw [ho] at houter; simp at houter
    · rcases List.exists_of_findSome?_eq_some ho with ⟨src2, hsrc2, hinner2⟩
      rcases List.exists_of_findSome?_eq_some hinner2 with ⟨g2, hg2, hres2⟩
      refine ⟨src2, hsrc2, g2, hg2, by rw [hres2]; rfl, ?_⟩
      rw [find_gla, ho, hres2]
  · intro h
    rw [find_gla]
    have houter : entry.sources.findSome?
        (fun src => src.glas.findSome? (fun g => resolve_gla index g)) = none := by
      rw [List.findSome?_eq_none_iff]
      intro src hsrc
      rw [List.findSome?_eq_none_iff]
      intro g hg
      exact h src hsrc g hg
    rw [houter]
  · intro ssrc hfound hskin hgla
    rw [collect_assets_for_skin, hfound]
    simp only [hskin, hgla]

def c8src : ModelSource :=
  ⟨"pk3", some "/base/a.pk3", some "models/players/reborn/model.glm",
   ["models/players/reborn/model_default.skin"], []⟩

def c8entry : ModelOut := ⟨[c8src], c8src, ["models/players/reborn/model_default.skin"]⟩

def c8gla : FileSource := ⟨"pk3", some "/base/a.pk3", "models/players/_humanoid/_humanoid.gla"⟩

def c8index : BuiltIndex :=
  ⟨[("reborn", c8entry)], [], [], [("models/players/_humanoid/_humanoid.gla", [c8gla])]⟩

def c8index2 : BuiltIndex := ⟨[("reborn", c8entry)], [], [], []⟩

/-- Witness for C8: with no source skeleton references, resolution follows
the fixed candidate chain; with no skeleton at all, collection still
succeeds with exactly the model and skin assets. -/
theorem spec_C8_witness :
    find_gla c8index "reborn" c8entry
        = (glaCandidates "reborn").findSome? (fun c => resolve_gla c8index c)
    ∧ collect_assets_for_skin c8index2 (fun _ => "") "reborn"
          "models/players/reborn/model_default.skin"
        = Except.ok
            ([((⟨"pk3", some "/base/a.pk3", "models/players/reborn/model.glm"⟩ : FileSource),
               ("models/players/reborn/model.glm" : String)),
              ((⟨"pk3", some "/base/a.pk3", "models/players/reborn/model_default.skin"⟩ : FileSource),
               ("models/players/reborn/model_default.skin" : String))], ([] : List String),
             ([] : List (String × String))) := by
  constructor
  · exact (spec_C8 c8index "reborn" c8entry (fun _ => "") "x").2.1 (by decide)
  · have h := (spec_C8 c8index2 "reborn" c8entry (fun _ => "")
        "models/players/reborn/model_default.skin").2.2.2
        ⟨"pk3", some "/base/a.pk3", "models/players/reborn/model_default.skin"⟩
        (by decide) (by decide) (by decide)
    rw [h]
    rfl

theorem find_updAssocEntry (l : List (String × MEntry)) (n : String) (f : MEntry → MEntry)
    (m : String) :
    ((updAssocEntry l n f).find? (fun e => e.1 == m)).map (fun e => e.2)
      = if n = m then
          some (f (((l.find? (fun e => e.1 == m)).map (fun e => e.2)).getD {}))
        else (l.find? (fun e => e.1 == m)).map (fun e => e.2) := by
  induction l with
  | nil =>
    rw [updAssocEntry]
    by_cases h : n = m
    · subst h
      rw [if_pos rfl, List.find?_cons_of_pos _ (by simp), List.find?_nil]
      rfl
    · rw [if_neg h, List.find?_cons_of_neg _ (by simpa using h)]
  | cons e r ih =>
    rw [updAssocEntry]
    by_cases he : e.1 = n
    · rw [if_pos he]
      by_cases hm : n = m
      · subst hm
        rw [if_pos rfl, List.find?_cons_of_pos _ (by simpa using he),
            List.find?_cons_of_pos _ (by simpa using he)]
        rfl
      · rw [if_neg hm,
            List.find?_cons_of_neg _ (by simp; intro hh; exact hm (he ▸ hh)),
            List.find?_cons_of_neg _ (by simp; intro hh; exact hm (he ▸ hh))]
    · rw [if_neg he]
      by_cases hm2 : e.1 = m
      · by_cases hnm : n = m
        · exact absurd (hnm ▸ hm2 : e.1 = n) he
        · rw [if_neg hnm, List.find?_cons_of_pos _ (by simpa using hm2),
              List.find?_cons_of_pos _ (by simpa using hm2)]
      · rw [List.find?_cons_of_neg _ (by simpa using hm2),
            List.find?_cons_of_neg _ (by simpa using hm2)]
        exact ih

theorem lookupEntry_updateModels (st : IndexState) (n : String) (f : MEntry → MEntry)
    (m : String) :
    lookupEntry (updateModels st n f) m
      = if n = m then some (f ((lookupEntry st n).getD {})) else lookupEntry st m := by
  by_cases h : n = m
  · subst h
    rw [if_pos rfl, lookupEntry, lookupEntry, updateModels]
    exact (find_updAssocEntry st.models_tmp n f n).trans (by rw [if_pos rfl])
  · rw [if_neg h, lookupEntry, lookupEntry, updateModels]
    exact (find_updAssocEntry st.models_tmp n f m).trans (by rw [if_neg h])

theorem lookupEntry_add_texture (st : IndexState) (rel origin : String)
    (container : Option String) (m : String) :
    lookupEntry (add_texture st rel origin container) m = lookupEntry st m := rfl

theorem lookupEntry_add_gla (st : IndexState) (rel origin : String)
    (container : Option String) (m : String) :
    lookupEntry (add_gla st rel origin container) m = lookupEntry st m := rfl

theorem models_scanLooseTextures (st : IndexState) (texs : List String) :
    (scanLooseTextures st texs).models_tmp = st.models_tmp := by
  rw [scanLooseTextures]
  induction texs generalizing st with
  | nil => rfl
  | cons x xs ih => rw [List.foldl_cons]; exact ih _

theorem updAssocSource_comp (l : List (SourceKey × ModelSource)) (key : SourceKey)
    (init : ModelSource) (f g : ModelSource → ModelSource) :
    updAssocSource (updAssocSource l key init f) key init g
      = updAssocSource l key init (fun s => g (f s)) := by
  induction l with
  | nil =>
    simp [updAssocSource]
  | cons e r ih =>
    rw [updAssocSource]
    by_cases he : e.1 = key
    · rw [if_pos he, updAssocSource, if_pos he, updAssocSource, if_pos he]
    · rw [if_neg he, updAssocSource, if_neg he, updAssocSource, if_neg he, ih]

theorem foldl_updAssocSource {β : Type} (xs : List β) (G : β → ModelSource → ModelSource)
    (l : List (SourceKey × ModelSource)) (key : SourceKey) (init : ModelSource)
    (f : ModelSource → ModelSource) :
    xs.foldl (fun acc x => updAssocSource acc key init (G x)) (updAssocSource l key init f)
      = updAssocSource l key init (fun s => xs.foldl (fun s x => G x s) (f s)) := by
  induction xs generalizing f with
  | nil => rfl
  | cons x rest ih =>
    rw [List.foldl_cons, updAssocSource_comp, ih]
    congr 1

theorem lookupEntry_foldl_updateModels (xs : List String) (n : String)
    (F : String → MEntry → MEntry) :
    ∀ (st : IndexState) (e0 : MEntry), lookupEntry st n = some e0 → ∀ m,
      lookupEntry (xs.foldl (fun s rel => updateModels s n (F rel)) st) m
        = if n = m then some (xs.foldl (fun e rel => F rel e) e0) else lookupEntry st m := by
  induction xs with
  | nil =>
    intro st e0 h m
    rw [List.foldl_nil, List.foldl_nil]
    by_cases hm : n = m
    · rw [if_pos hm]; rw [← hm]; exact h
    · rw [if_neg hm]
  | cons x rest ih =>
    intro st e0 h m
    rw [List.foldl_cons, List.foldl_cons]
    have h1 : lookupEntry (updateModels st n (F x)) n = some (F x e0) := by
      rw [lookupEntry_updateModels, if_pos rfl, h]
      rfl
    rw [ih (updateModels st n (F x)) (F x e0) h1 m]
    by_cases hm : n = m
    · rw [if_pos hm, if_pos hm]
    · rw [if_neg hm, if_neg hm, lookupEntry_updateModels, if_neg hm]

theorem lookupEntry_foldl_updateModels_gla (xs : List String) (n : String)
    (F : String → MEntry → MEntry) :
    ∀ (st : IndexState) (e0 : MEntry), lookupEntry st n = some e0 → ∀ m,
      lookupEntry (xs.foldl (fun s rel =>
          add_gla (updateModels s n (F rel)) rel "disk" none) st) m
        = if n = m then some (xs.foldl (fun e rel => F rel e) e0) else lookupEntry st m := by
  induction xs with
  | nil =>
    intro st e0 h m
    rw [List.foldl_nil, List.foldl_nil]
    by_cases hm : n = m
    · rw [if_pos hm]; rw [← hm]; exact h
    · rw [if_neg hm]
  | cons x rest ih =>
    intro st e0 h m
    rw [List.foldl_cons, List.foldl_cons]
    have h1 : lookupEntry (add_gla (updateModels st n (F x)) x "disk" none) n
        = some (F x e0) := by
      rw [lookupEntry_add_gla, lookupEntry_updateModels, if_pos rfl, h]
      rfl
    rw [ih _ (F x e0) h1 m]
    by_cases hm : n = m
    · rw [if_pos hm, if_pos hm]
    · rw [if_neg hm, if_neg hm, lookupEntry_add_gla, lookupEntry_updateModels, if_neg hm]

theorem lookupEntry_foldl_add_texture (xs : List String) (st : IndexState) (m : String) :
    lookupEntry (xs.foldl (fun s rel => add_texture s rel "disk" none) st) m
      = lookupEntry st m := by
  induction xs generalizing st with
  | nil => rfl
  | cons x rest ih =>
    rw [List.foldl_cons, ih, lookupEntry_add_texture]

theorem skinFoldEntry_split (key : SourceKey) (init : ModelSource) (xs : List String) :
    ∀ (e : MEntry),
      xs.foldl (fun ent rel =>
        { ent with
          sources := updAssocSource ent.sources key init
            (fun src => { src with skins := addSet src.skins rel }),
          skins := addSet ent.skins rel }) e
      = ⟨xs.foldl (fun srcs rel => updAssocSource srcs key init
            (fun src => { src with skins := addSet src.skins rel })) e.sources,
         xs.foldl addSet e.skins⟩ := by
  induction xs with
  | nil => intro e; rfl
  | cons x rest ih =>
    intro e
    rw [List.foldl_cons, ih]
    rfl

theorem glaFoldEntry_split (key : SourceKey) (init : ModelSource) (xs : List String) :
    ∀ (e : MEntry),
      xs.foldl (fun ent rel =>
        { ent with
          sources := updAssocSource ent.sources key init
            (fun src => { src with glas := addSet src.glas rel }) }) e
      = ⟨xs.foldl (fun srcs rel => updAssocSource srcs key init
            (fun src => { src with glas := addSet src.glas rel })) e.sources,
         e.skins⟩ := by
  induction xs with
  | nil => intro e; rfl
  | cons x rest ih =>
    intro e
    rw [List.foldl_cons, ih]
    rfl

theorem lookupEntry_diskDirStep (st : IndexState) (d : DiskModelDir) (m : String) :
    lookupEntry (diskDirStep st d) m
      = if d.name = m then dirLookupResult d (lookupEntry st m) else lookupEntry st m := by
  rcases d with ⟨name, glmFiles, skinFiles, glaFiles, texFiles⟩
  cases glmFiles with
  | nil =>
    by_cases h : name = m
    · rw [if_pos h]; rfl
    · rw [if_neg h]; rfl
  | cons g0 grest =>
    simp only [diskDirStep]
    have h1 : lookupEntry (updateModels st name (fun ent =>
        { ent with
          sources := updAssocSource ent.sources (SourceKey.dirKey name)
            ⟨"disk", none, none, [], []⟩
            (fun s => { s with glm := some (((g0 :: grest).find?
              (fun p => lowerStr (pathName p) == "model.glm")).getD g0) }) })) name
        = some ({ (lookupEntry st name).getD {} with
            sources := updAssocSource ((lookupEntry st name).getD {}).sources
              (SourceKey.dirKey name) ⟨"disk", none, none, [], []⟩
              (fun s => { s with glm := some (((g0 :: grest).find?
                (fun p => lowerStr (pathName p) == "model.glm")).getD g0) }) }) := by
      rw [lookupEntry_updateModels, if_pos rfl]
    rw [lookupEntry_foldl_add_texture]
    rw [lookupEntry_foldl_updateModels_gla glaFiles name _ _ _
      (by rw [lookupEntry_foldl_updateModels skinFiles name _ _ _ h1 name, if_pos rfl]) m]
    by_cases hm : name = m
    · rw [if_pos hm]
      rw [glaFoldEntry_split, skinFoldEntry_split]
      rw [foldl_updAssocSource, foldl_updAssocSource]
      subst hm
      rw [if_pos rfl]
      rfl
    · rw [if_neg hm]
      rw [lookupEntry_foldl_updateModels skinFiles name _ _ _ h1 m, if_neg hm,
          lookupEntry_updateModels, if_neg hm, if_neg hm]

theorem lookupEntry_dirsFold (dirs : List DiskModelDir) :
    ∀ (st : IndexState) (m : String), (dirs.map DiskModelDir.name).Nodup →
      lookupEntry (dirs.foldl diskDirStep st) m
        = match dirs.find? (fun d => d.name == m) with
          | none => lookupEntry st m
          | some d => dirLookupResult d (lookupEntry st m) := by
  induction dirs with
  | nil => intro st m _; rfl
  | cons d rest ih =>
    intro st m hnd
    rw [List.foldl_cons]
    have hnd2 : (rest.map DiskModelDir.name).Nodup := (List.nodup_cons.mp hnd).2
    rw [ih (diskDirStep st d) m hnd2]
    by_cases hdm : d.name = m
    · rw [List.find?_cons_of_pos _ (by simpa using hdm)]
      have hrest : rest.find? (fun e => e.name == m) = none := by
        rw [List.find?_eq_none]
        intro e he hbeq
        have hmem : e.name ∈ rest.map DiskModelDir.name := List.mem_map_of_mem _ he
        have heq : e.name = m := by simpa using hbeq
        exact (List.nodup_cons.mp hnd).1 (hdm ▸ (heq ▸ hmem))
      rw [hrest, lookupEntry_diskDirStep, if_pos hdm]
    · rw [List.find?_cons_of_neg _ (by simpa using hdm)]
      rcases hf : rest.find? (fun e => e.name == m) with _ | d2
      · rw [lookupEntry_diskDirStep, if_neg hdm]
      · rw [lookupEntry_diskDirStep, if_neg hdm]

theorem msEquiv_refl (a : ModelSource) : msEquiv a a :=
  ⟨rfl, rfl, rfl, fun _ => Iff.rfl, fun _ => Iff.rfl⟩

theorem entEquiv_refl (a : MEntry) : entEquiv a a :=
  ⟨List.forall₂_same.mpr (fun e _ => ⟨rfl, msEquiv_refl e.2⟩), fun _ => Iff.rfl⟩

theorem optRel_entEquiv_refl (o : Option MEntry) : optRel entEquiv o o := by
  cases o with
  | none => trivial
  | some e => exact entEquiv_refl e

theorem mem_addSet (l : List String) (y x : String) : x ∈ addSet l y ↔ x ∈ l ∨ x = y := by
  rw [addSet]
  by_cases h : y ∈ l
  · rw [if_pos h]
    constructor
    · exact Or.inl
    · intro hh
      rcases hh with hh | rfl
      · exact hh
      · exact h
  · rw [if_neg h]
    simp

theorem mem_foldl_addSet (xs : List String) :
    ∀ (l : List String) (x : String), x ∈ xs.foldl addSet l ↔ x ∈ l ∨ x ∈ xs := by
  induction xs with
  | nil => intro l x; simp
  | cons y ys ih =>
    intro l x
    rw [List.foldl_cons, ih, mem_addSet]
    simp
    tauto

theorem updAssocSource_forall₂ {l1 l2 : List (SourceKey × ModelSource)}
    (h : List.Forall₂ (fun p q => p.1 = q.1 ∧ msEquiv p.2 q.2) l1 l2)
    (key : SourceKey) (init : ModelSource) {f1 f2 : ModelSource → ModelSource}
    (hf : ∀ a b, msEquiv a b → msEquiv (f1 a) (f2 b)) :
    List.Forall₂ (fun p q => p.1 = q.1 ∧ msEquiv p.2 q.2)
      (updAssocSource l1 key init f1) (updAssocSource l2 key init f2) := by
  induction h with
  | nil =>
    rw [updAssocSource, updAssocSource]
    exact List.Forall₂.cons ⟨rfl, hf init init (msEquiv_refl init)⟩ List.Forall₂.nil
  | cons he hrest ih =>
    rename_i e1 e2 r1 r2
    rw [updAssocSource, updAssocSource]
    by_cases hk : e1.1 = key
    · rw [if_pos hk, if_pos (he.1 ▸ hk)]
      exact List.Forall₂.cons ⟨he.1, hf e1.2 e2.2 he.2⟩ hrest
    · rw [if_neg hk, if_neg (fun hh => hk (he.1 ▸ hh))]
      exact List.Forall₂.cons he ih

theorem skinFoldSrc_fields (xs : List String) :
    ∀ (s : ModelSource),
      xs.foldl (fun s rel => { s with skins := addSet s.skins rel }) s
        = { s with skins := xs.foldl addSet s.skins } := by
  induction xs with
  | nil => intro s; rfl
  | cons x rest ih => intro s; rw [List.foldl_cons, ih]; rfl

theorem glaFoldSrc_fields (xs : List String) :
    ∀ (s : ModelSource),
      xs.foldl (fun s rel => { s with glas := addSet s.glas rel }) s
        = { s with glas := xs.foldl addSet s.glas } := by
  induction xs with
  | nil => intro s; rfl
  | cons x rest ih => intro s; rw [List.foldl_cons, ih]; rfl

theorem diskSrcFull_eq (d : DiskModelDir) (g0 : String) (s : ModelSource) :
    diskSrcFull d g0 s
      = { s with
          glm := some ((d.glmFiles.find? (fun p => lowerStr (pathName p) == "model.glm")).getD g0),
          skins := d.skinFiles.foldl addSet s.skins,
          glas := d.glaFiles.foldl addSet s.glas } := by
  rw [diskSrcFull]
  rw [skinFoldSrc_fields, glaFoldSrc_fields]

theorem diskSrcFull_msEquiv {d e : DiskModelDir} (hd : dirEquiv d e) (g0 g1 : String)
    {a b : ModelSource} (hab : msEquiv a b) :
    msEquiv (diskSrcFull d g0 a) (diskSrcFull e g1 b) := by
  rw [diskSrcFull_eq, diskSrcFull_eq]
  refine ⟨hab.1, hab.2.1, rfl, ?_, ?_⟩
  · intro x
    rw [show ({ a with
        glm := some ((d.glmFiles.find? (fun p => lowerStr (pathName p) == "model.glm")).getD g0),
        skins := d.skinFiles.foldl addSet a.skins,
        glas := d.glaFiles.foldl addSet a.glas } : ModelSource).skins
          = d.skinFiles.foldl addSet a.skins from rfl]
    rw [show ({ b with
        glm := some ((e.glmFiles.find? (fun p => lowerStr (pathName p) == "model.glm")).getD g1),
        skins := e.skinFiles.foldl addSet b.skins,
        glas := e.glaFiles.foldl addSet b.glas } : ModelSource).skins
          = e.skinFiles.foldl addSet b.skins from rfl]
    rw [mem_foldl_addSet, mem_foldl_addSet]
    rw [hab.2.2.2.1 x]
    rw [Iff.comm]
    constructor
    · intro hh
      rcases hh with hh | hh
      · exact Or.inl hh
      · exact Or.inr (hd.2.2.1.mem_iff.mpr hh)
    · intro hh
      rcases hh with hh | hh
      · exact Or.inl hh
      · exact Or.inr (hd.2.2.1.mem_iff.mp hh)
  · intro x
    rw [show ({ a with
        glm := some ((d.glmFiles.find? (fun p => lowerStr (pathName p) == "model.glm")).getD g0),
        skins := d.skinFiles.foldl addSet a.skins,
        glas := d.glaFiles.foldl addSet a.glas } : ModelSource).glas
          = d.glaFiles.foldl addSet a.glas from rfl]
    rw [show ({ b with
        glm := some ((e.glmFiles.find? (fun p => lowerStr (pathName p) == "model.glm")).getD g1),
        skins := e.skinFiles.foldl addSet b.skins,
        glas := e.glaFiles.foldl addSet b.glas } : ModelSource).glas
          = e.glaFiles.foldl addSet b.glas from rfl]
    rw [mem_foldl_addSet, mem_foldl_addSet]
    rw [hab.2.2.2.2 x]
    constructor
    · intro hh
      rcases hh with hh | hh
      · exact Or.inl hh
      · exact Or.inr (hd.2.2.2.1.mem_iff.mp hh)
    · intro hh
      rcases hh with hh | hh
      · exact Or.inl hh
      · exact Or.inr (hd.2.2.2.1.mem_iff.mpr hh)

theorem diskEntryApply_cons {d : DiskModelDir} {g0 : String} {grest : List String}
    (hg : d.glmFiles = g0 :: grest) (ent : MEntry) :
    diskEntryApply d ent
      = ⟨updAssocSource ent.sources (SourceKey.dirKey d.name) ⟨"disk", none, none, [], []⟩
           (diskSrcFull d g0),
         d.skinFiles.foldl addSet ent.skins⟩ := by
  rcases d with ⟨n, gf, sf, glf, tf⟩
  cases hg
  rfl

theorem diskEntryApply_nil {d : DiskModelDir} (hg : d.glmFiles = []) (ent : MEntry) :
    diskEntryApply d ent = ent := by
  rcases d with ⟨n, gf, sf, glf, tf⟩
  cases hg
  rfl

theorem dirLookupResult_cons {d : DiskModelDir} {g0 : String} {grest : List String}
    (hg : d.glmFiles = g0 :: grest) (prev : Option MEntry) :
    dirLookupResult d prev = some (diskEntryApply d (prev.getD {})) := by
  rcases d with ⟨n, gf, sf, glf, tf⟩
  cases hg
  rfl

theorem dirLookupResult_nil {d : DiskModelDir} (hg : d.glmFiles = []) (prev : Option MEntry) :
    dirLookupResult d prev = prev := by
  rcases d with ⟨n, gf, sf, glf, tf⟩
  cases hg
  rfl

theorem diskEntryApply_entEquiv {d e : DiskModelDir} (hd : dirEquiv d e) (ent : MEntry) :
    entEquiv (diskEntryApply d ent) (diskEntryApply e ent) := by
  rcases hg : d.glmFiles with _ | ⟨g0, grest⟩
  · have hge : e.glmFiles = [] := by
      have hp := hd.2.1
      rw [hg] at hp
      exact hp.symm.eq_nil
    rw [diskEntryApply_nil hg, diskEntryApply_nil hge]
    exact entEquiv_refl ent
  · rcases hge : e.glmFiles with _ | ⟨g1, grest2⟩
    · have hp := hd.2.1
      rw [hg, hge] at hp
      exact absurd hp.eq_nil (by simp)
    · rw [diskEntryApply_cons hg ent, diskEntryApply_cons hge ent]
      refine ⟨?_, ?_⟩
      · show List.Forall₂ _ (updAssocSource ent.sources (SourceKey.dirKey d.name)
            ⟨"disk", none, none, [], []⟩ (diskSrcFull d g0)) _
        rw [← hd.1]
        refine updAssocSource_forall₂
          (List.forall₂_same.mpr (fun x _ => ⟨rfl, msEquiv_refl x.2⟩)) _ _ ?_
        intro a b hab
        exact diskSrcFull_msEquiv hd g0 g1 hab
      · intro x
        show x ∈ d.skinFiles.foldl addSet ent.skins ↔ x ∈ e.skinFiles.foldl addSet ent.skins
        rw [mem_foldl_addSet, mem_foldl_addSet]
        constructor
        · intro hh
          rcases hh with hh | hh
          · exact Or.inl hh
          · exact Or.inr (hd.2.2.1.mem_iff.mp hh)
        · intro hh
          rcases hh with hh | hh
          · exact Or.inl hh
          · exact Or.inr (hd.2.2.1.mem_iff.mpr hh)

theorem dirLookupResult_equiv {d e : DiskModelDir} (hd : dirEquiv d e) (prev : Option MEntry) :
    optRel entEquiv (dirLookupResult d prev) (dirLookupResult e prev) := by
  rcases hg : d.glmFiles with _ | ⟨g0, grest⟩
  · have hge : e.glmFiles = [] := by
      have hp := hd.2.1
      rw [hg] at hp
      exact hp.symm.eq_nil
    rw [dirLookupResult_nil hg, dirLookupResult_nil hge]
    exact optRel_entEquiv_refl prev
  · rcases hge : e.glmFiles with _ | ⟨g1, grest2⟩
    · have hp := hd.2.1
      rw [hg, hge] at hp
      exact absurd hp.eq_nil (by simp)
    · rw [dirLookupResult_cons hg prev, dirLookupResult_cons hge prev]
      exact diskEntryApply_entEquiv hd (prev.getD {})

theorem forall₂_dir_names {l1 l2 : List DiskModelDir} (h : List.Forall₂ dirEquiv l1 l2) :
    l1.map DiskModelDir.name = l2.map DiskModelDir.name := by
  induction h with
  | nil => rfl
  | cons hd _ ih =>
    rw [List.map_cons, List.map_cons, hd.1, ih]

theorem find?_name_forall₂ {l1 l2 : List DiskModelDir} (h : List.Forall₂ dirEquiv l1 l2)
    (n : String) :
    optRel dirEquiv (l1.find? (fun d => d.name == n)) (l2.find? (fun d => d.name == n)) := by
  induction h with
  | nil => trivial
  | cons hd hrest ih =>
    rename_i d1 d2 r1 r2
    by_cases hn : d1.name = n
    · rw [List.find?_cons_of_pos _ (by simpa using hn),
          List.find?_cons_of_pos _ (by simp [← hd.1]; exact hn)]
      exact hd
    · rw [List.find?_cons_of_neg _ (by simpa using hn),
          List.find?_cons_of_neg _ (by simp [← hd.1]; exact hn)]
      exact ih

theorem name_injective_of_nodup {l : List DiskModelDir}
    (hnd : (l.map DiskModelDir.name).Nodup) {a b : DiskModelDir}
    (ha : a ∈ l) (hb : b ∈ l) (hab : a.name = b.name) : a = b :=
  List.inj_on_of_nodup_map hnd ha hb hab

theorem find?_name_perm {l1 l2 : List DiskModelDir} (hp : l1.Perm l2)
    (hnd : (l1.map DiskModelDir.name).Nodup) (n : String) :
    l1.find? (fun d => d.name == n) = l2.find? (fun d => d.name == n) := by
  rcases h1 : l1.find? (fun d => d.name == n) with _ | d
  · rcases h2 : l2.find? (fun d => d.name == n) with _ | d2
    · rw [h1, h2]
    · have hd2 : d2 ∈ l2 := List.mem_of_find?_eq_some h2
      have := List.find?_eq_none.mp h1 d2 (hp.mem_iff.mpr hd2)
      exact absurd (List.find?_some h2) this
  · have hd : d ∈ l1 := List.mem_of_find?_eq_some h1
    have hpd := List.find?_some h1
    rcases h2 : l2.find? (fun d => d.name == n) with _ | d2
    · exact absurd hpd (List.find?_eq_none.mp h2 d (hp.mem_iff.mp hd))
    · have hd2 : d2 ∈ l1 := hp.mem_iff.mpr (List.mem_of_find?_eq_some h2)
      have hpd2 := List.find?_some h2
      have hdd : d = d2 := by
        apply name_injective_of_nodup hnd hd hd2
        rw [show d.name = n by simpa using hpd, show d2.name = n by simpa using hpd2]
      rw [h1, h2, hdd]

theorem keys_updAssocEntry (l : List (String × MEntry)) (n : String) (f : MEntry → MEntry) :
    (updAssocEntry l n f).map (fun e => e.1)
      = if n ∈ l.map (fun e => e.1) then l.map (fun e => e.1)
        else l.map (fun e => e.1) ++ [n] := by
  induction l with
  | nil => simp [updAssocEntry]
  | cons e r ih =>
    rw [updAssocEntry]
    by_cases he : e.1 = n
    · rw [if_pos he, if_pos (by simp [he])]
      rfl
    · rw [if_neg he, List.map_cons, ih, List.map_cons]
      by_cases hn : n ∈ r.map (fun e => e.1)
      · rw [if_pos hn, if_pos (by simp [hn])]
      · rw [if_neg hn, if_neg (by
          simp only [List.map_cons, List.mem_cons, not_or]
          exact ⟨fun hh => he hh.symm, hn⟩)]
        rfl

theorem nodup_updAssocEntry {l : List (String × MEntry)} (n : String) (f : MEntry → MEntry)
    (h : (l.map (fun e => e.1)).Nodup) : ((updAssocEntry l n f).map (fun e => e.1)).Nodup := by
  rw [keys_updAssocEntry]
  by_cases hn : n ∈ l.map (fun e => e.1)
  · rw [if_pos hn]; exact h
  · rw [if_neg hn]
    simp [List.nodup_append, h, hn]

theorem nodup_updateModels {st : IndexState} (n : String) (f : MEntry → MEntry)
    (h : (st.models_tmp.map (fun e => e.1)).Nodup) :
    ((updateModels st n f).models_tmp.map (fun e => e.1)).Nodup :=
  nodup_updAssocEntry n f h

theorem nodup_pk3MemberStep (p : String) (st : IndexState) (info : Pk3Entry)
    (h : (st.models_tmp.map (fun e => e.1)).Nodup) :
    ((pk3MemberStep p st info).models_tmp.map (fun e => e.1)).Nodup := by
  rw [pk3MemberStep]
  split
  · exact h
  · dsimp only
    split
    · exact h
    · split
      · split
        · split
          · exact nodup_updateModels _ _ h
          · exact nodup_updateModels _ _ h
        · exact h
      · exact h

theorem nodup_scanArchive (st : IndexState) (a : Pk3File)
    (h : (st.models_tmp.map (fun e => e.1)).Nodup) :
    ((scanArchive st a).models_tmp.map (fun e => e.1)).Nodup := by
  rw [scanArchive]
  by_cases hr : a.readable
  · rw [if_pos hr]
    induction a.entries generalizing st with
    | nil => exact h
    | cons e rest ih =>
      rw [List.foldl_cons]
      exact ih _ (nodup_pk3MemberStep a.path st e h)
  · rw [if_neg hr]; exact h

theorem nodup_scanArchives (pk3s : List Pk3File) :
    ∀ (st : IndexState), (st.models_tmp.map (fun e => e.1)).Nodup →
      ((scanArchives st pk3s).models_tmp.map (fun e => e.1)).Nodup := by
  induction pk3s with
  | nil => intro st h; exact h
  | cons a rest ih =>
    intro st h
    rw [scanArchives, List.foldl_cons]
    by_cases hs : should_skip_pk3 a.path
    · rw [if_pos hs]
      exact ih st h
    · rw [if_neg hs]
      exact ih _ (nodup_scanArchive st a h)

theorem nodup_foldl_updateModels (xs : List String) (n : String)
    (F : String → MEntry → MEntry) :
    ∀ (st : IndexState), (st.models_tmp.map (fun e => e.1)).Nodup →
      (((xs.foldl (fun s rel => updateModels s n (F rel)) st)).models_tmp.map
        (fun e => e.1)).Nodup := by
  induction xs with
  | nil => intro st h; exact h
  | cons x rest ih =>
    intro st h
    rw [List.foldl_cons]
    exact ih _ (nodup_updateModels _ _ h)

theorem nodup_foldl_updateModels_gla (xs : List String) (n : String)
    (F : String → MEntry → MEntry) :
    ∀ (st : IndexState), (st.models_tmp.map (fun e => e.1)).Nodup →
      ((xs.foldl (fun s rel =>
          add_gla (updateModels s n (F rel)) rel "disk" none) st).models_tmp.map
        (fun e => e.1)).Nodup := by
  induction xs with
  | nil => intro st h; exact h
  | cons x rest ih =>
    intro st h
    rw [List.foldl_cons]
    exact ih _ (nodup_updateModels _ _ h)

theorem models_foldl_add_texture (xs : List String) :
    ∀ (st : IndexState),
      ((xs.foldl (fun s rel => add_texture s rel "disk" none) st)).models_tmp
        = st.models_tmp := by
  induction xs with
  | nil => intro st; rfl
  | cons x rest ih =>
    intro st
    rw [List.foldl_cons, ih]
    rfl

theorem nodup_diskDirStep (st : IndexState) (d : DiskModelDir)
    (h : (st.models_tmp.map (fun e => e.1)).Nodup) :
    ((diskDirStep st d).models_tmp.map (fun e => e.1)).Nodup := by
  rcases d with ⟨name, glmFiles, skinFiles, glaFiles, texFiles⟩
  cases glmFiles with
  | nil => exact h
  | cons g0 grest =>
    simp only [diskDirStep]
    rw [models_foldl_add_texture]
    exact nodup_foldl_updateModels_gla glaFiles name _ _
      (nodup_foldl_updateModels skinFiles name _ _ (nodup_updateModels _ _ h))

theorem nodup_dirsFold (dirs : List DiskModelDir) :
    ∀ (st : IndexState), (st.models_tmp.map (fun e => e.1)).Nodup →
      ((dirs.foldl diskDirStep st).models_tmp.map (fun e => e.1)).Nodup := by
  induction dirs with
  | nil => intro st h; exact h
  | cons d rest ih =>
    intro st h
    rw [List.foldl_cons]
    exact ih _ (nodup_diskDirStep st d h)

theorem forall₂_snd {l1 l2 : List (SourceKey × ModelSource)}
    (h : List.Forall₂ (fun p q => p.1 = q.1 ∧ msEquiv p.2 q.2) l1 l2) :
    List.Forall₂ msEquiv (l1.map (fun e => e.2)) (l2.map (fun e => e.2)) := by
  induction h with
  | nil => exact List.Forall₂.nil
  | cons hd _ ih => exact List.Forall₂.cons hd.2 ih

theorem forall₂_filter_congr {α : Type} {R : α → α → Prop} {p : α → Bool}
    (hp : ∀ a b, R a b → p a = p b) :
    ∀ {l1 l2 : List α}, List.Forall₂ R l1 l2 →
      List.Forall₂ R (l1.filter p) (l2.filter p) := by
  intro l1 l2 h
  induction h with
  | nil => exact List.Forall₂.nil
  | cons hd hrest ih =>
    rename_i a b r1 r2
    rw [List.filter_cons, List.filter_cons]
    by_cases hab : p a = true
    · rw [if_pos hab, if_pos (by rw [← hp a b hd]; exact hab)]
      exact List.Forall₂.cons hd ih
    · rw [if_neg hab, if_neg (fun hh => hab (by rw [hp a b hd]; exact hh))]
      exact ih

theorem forall₂_exists_right {α : Type} {R : α → α → Prop} :
    ∀ {l1 l2 : List α}, List.Forall₂ R l1 l2 → ∀ {a : α}, a ∈ l1 → ∃ b ∈ l2, R a b := by
  intro l1 l2 h
  induction h with
  | nil => intro a ha; exact absurd ha (by simp)
  | cons hd hrest ih =>
    rename_i x y r1 r2
    intro a ha
    rcases List.mem_cons.mp ha with rfl | ha2
    · exact ⟨y, by simp, hd⟩
    · rcases ih ha2 with ⟨b, hb, hr⟩
      exact ⟨b, by simp [hb], hr⟩

theorem forall₂_exists_left {α : Type} {R : α → α → Prop} :
    ∀ {l1 l2 : List α}, List.Forall₂ R l1 l2 → ∀ {b : α}, b ∈ l2 → ∃ a ∈ l1, R a b := by
  intro l1 l2 h
  induction h with
  | nil => intro b hb; exact absurd hb (by simp)
  | cons hd hrest ih =>
    rename_i x y r1 r2
    intro b hb
    rcases List.mem_cons.mp hb with rfl | hb2
    · exact ⟨x, by simp, hd⟩
    · rcases ih hb2 with ⟨a, ha, hr⟩
      exact ⟨a, by simp [ha], hr⟩

theorem msEquiv_preferred {a b : ModelSource} (h : msEquiv a b) :
    isPreferredArchive a = isPreferredArchive b := by
  rw [isPreferredArchive, isPreferredArchive, h.2.1]

theorem msEquiv_prioClass {a b : ModelSource} (h : msEquiv a b) :
    prioClass a = prioClass b := by
  rw [prioClass, prioClass, h.1, msEquiv_preferred h]

theorem mem_unionSkins (sources : List ModelSource) (x : String) :
    x ∈ unionSkins sources ↔ ∃ s ∈ sources, x ∈ s.skins := by
  rw [unionSkins]
  have hgen : ∀ acc, x ∈ sources.foldl (fun l src => src.skins.foldl addSet l) acc
      ↔ x ∈ acc ∨ ∃ s ∈ sources, x ∈ s.skins := by
    induction sources with
    | nil => intro acc; simp
    | cons s rest ih =>
      intro acc
      rw [List.foldl_cons, ih, mem_foldl_addSet]
      simp
      tauto
  rw [hgen []]
  simp

theorem mkModelOut_eq (ent : MEntry) :
    mkModelOut ent
      = match (sortStable prioLe ((ent.sources.map (fun e => e.2)).filter
          (fun s => s.glm.isSome))).head? with
        | none => none
        | some primary =>
            some ⟨ent.sources.map (fun e => e.2), primary,
              sortStable skinLe (unionSkins (ent.sources.map (fun e => e.2)))⟩ := rfl

theorem mkOut_equiv {a b : MEntry} (h : entEquiv a b) :
    (mkModelOut a).isSome = (mkModelOut b).isSome
    ∧ ∀ oa ob, mkModelOut a = some oa → mkModelOut b = some ob →
        prioClass oa.primary = prioClass ob.primary
        ∧ (∀ x, x ∈ oa.skins ↔ x ∈ ob.skins) := by
  have hsrc := forall₂_snd h.1
  have hglm := forall₂_filter_congr (fun x y hxy => hxy.2.2.1) hsrc
  have hlen : ((a.sources.map (fun e => e.2)).filter (fun s => s.glm.isSome)).length
      = ((b.sources.map (fun e => e.2)).filter (fun s => s.glm.isSome)).length :=
    hglm.length_eq
  have hiff : sortStable prioLe ((a.sources.map (fun e => e.2)).filter
        (fun s => s.glm.isSome)) = []
      ↔ sortStable prioLe ((b.sources.map (fun e => e.2)).filter
        (fun s => s.glm.isSome)) = [] := by
    rw [← List.length_eq_zero, ← List.length_eq_zero,
      (sortStable_perm prioLe _).length_eq, (sortStable_perm prioLe _).length_eq, hlen]
  constructor
  · rcases hsa : sortStable prioLe ((a.sources.map (fun e => e.2)).filter
        (fun s => s.glm.isSome)) with _ | ⟨pa, ra⟩
    · have hsb := hiff.mp hsa
      rw [mkModelOut_eq a, mkModelOut_eq b, hsa, hsb]
      rfl
    · rcases hsb : sortStable prioLe ((b.sources.map (fun e => e.2)).filter
          (fun s => s.glm.isSome)) with _ | ⟨pb, rb⟩
      · exact absurd (hiff.mpr hsb) (by rw [hsa]; simp)
      · rw [mkModelOut_eq a, mkModelOut_eq b, hsa, hsb]
        rfl
  · intro oa ob hoa hob
    obtain ⟨hsA, hpA, hskA⟩ := mkModelOut_spec hoa
    obtain ⟨hsB, hpB, hskB⟩ := mkModelOut_spec hob
    rw [hsA] at hpA hskA
    rw [hsB] at hpB hskB
    obtain ⟨hmemA, hminA⟩ := head_sortStable_min hpA
    obtain ⟨hmemB, hminB⟩ := head_sortStable_min hpB
    obtain ⟨y, hy, hry⟩ := forall₂_exists_right hglm hmemA
    obtain ⟨z, hz, hrz⟩ := forall₂_exists_left hglm hmemB
    have h1 : prioClass ob.primary ≤ prioClass y := (prioLe_class _ _).mp (hminB y hy)
    have h2 : prioClass oa.primary ≤ prioClass z := (prioLe_class _ _).mp (hminA z hz)
    have e1 := msEquiv_prioClass hry
    have e2 := msEquiv_prioClass hrz
    constructor
    · omega
    · intro x
      rw [hskA, hskB]
      rw [(sortStable_perm skinLe _).mem_iff, (sortStable_perm skinLe _).mem_iff]
      rw [mem_unionSkins, mem_unionSkins]
      constructor
      · rintro ⟨s, hs, hxs⟩
        obtain ⟨u, hu, hru⟩ := forall₂_exists_right hsrc hs
        exact ⟨u, hu, (hru.2.2.2.1 x).mp hxs⟩
      · rintro ⟨u, hu, hxu⟩
        obtain ⟨s, hs, hrs⟩ := forall₂_exists_left hsrc hu
        exact ⟨s, hs, (hrs.2.2.2.1 x).mpr hxu⟩

theorem mem_keys_assemble {r : List (String × MEntry)} {p : String × ModelOut}
    (hp : p ∈ r.filterMap (fun e => (mkModelOut e.2).map (fun out => (e.1, out)))) :
    p.1 ∈ r.map (fun e => e.1) := by
  rcases List.mem_filterMap.mp hp with ⟨e, he, hfe⟩
  rcases hmk : mkModelOut e.2 with _ | out
  · rw [hmk] at hfe
    exact absurd hfe (by simp)
  · rw [hmk] at hfe
    have hpe : (e.1, out) = p := by simpa using hfe
    rw [← hpe]
    exact List.mem_map_of_mem _ he

theorem find_assemble_list (l : List (String × MEntry)) (n : String) :
    (l.map (fun e => e.1)).Nodup →
    ((l.filterMap (fun e => (mkModelOut e.2).map (fun out => (e.1, out)))).find?
        (fun e => e.1 == n)).map (fun e => e.2)
      = ((l.find? (fun e => e.1 == n)).map (fun e => e.2)).bind mkModelOut := by
  induction l with
  | nil => intro _; rfl
  | cons e r ih =>
    intro hnd
    have hnd' : ((e.1 :: r.map (fun e => e.1))).Nodup := by simpa using hnd
    have hnd2 : (r.map (fun e => e.1)).Nodup := (List.nodup_cons.mp hnd').2
    have hnotin : e.1 ∉ r.map (fun e => e.1) := (List.nodup_cons.mp hnd').1
    rcases hmk : mkModelOut e.2 with _ | out
    · rw [List.filterMap_cons_none (by rw [hmk]; rfl)]
      by_cases hen : e.1 = n
      · rw [List.find?_cons_of_pos _ (by simpa using hen)]
        have hnone : (r.filterMap (fun e => (mkModelOut e.2).map
            (fun out => (e.1, out)))).find? (fun e => e.1 == n) = none := by
          rw [List.find?_eq_none]
          intro p hp hbeq
          have hkey : p.1 ∈ r.map (fun e => e.1) := mem_keys_assemble hp
          have hpn : p.1 = n := by simpa using hbeq
          exact hnotin (hen ▸ (hpn ▸ hkey))
        rw [hnone]
        simp [hmk]
      · rw [List.find?_cons_of_neg _ (by simpa using hen)]
        exact ih hnd2
    · rw [List.filterMap_cons_some (by rw [hmk]; rfl)]
      by_cases hen : e.1 = n
      · rw [List.find?_cons_of_pos _ (by simpa using hen),
          List.find?_cons_of_pos _ (by simpa using hen)]
        simp [hmk]
      · rw [List.find?_cons_of_neg _ (by simpa using hen),
          List.find?_cons_of_neg _ (by simpa using hen)]
        exact ih hnd2

theorem lookupEntry_scanLooseTextures (st : IndexState) (texs : List String) (m : String) :
    lookupEntry (scanLooseTextures st texs) m = lookupEntry st m := by
  rw [lookupEntry, lookupEntry, models_scanLooseTextures]

theorem findModel_build_index (snap : Snapshot) (n : String) :
    findModel (build_index snap) n
      = (lookupEntry (snap.modelDirs.foldl diskDirStep (scanArchives {} snap.pk3s)) n).bind
          mkModelOut := by
  have hnd0 : ((({} : IndexState)).models_tmp.map (fun e => e.1)).Nodup := by simp
  have hnd3 : ((scanLooseTextures (snap.modelDirs.foldl diskDirStep
      (scanArchives {} snap.pk3s)) snap.looseTextures).models_tmp.map (fun e => e.1)).Nodup := by
    rw [models_scanLooseTextures]
    exact nodup_dirsFold _ _ (nodup_scanArchives _ _ hnd0)
  have h1 := find_assemble_list (scanLooseTextures (snap.modelDirs.foldl diskDirStep
      (scanArchives {} snap.pk3s)) snap.looseTextures).models_tmp n hnd3
  have h2 : findModel (build_index snap) n
      = (((scanLooseTextures (snap.modelDirs.foldl diskDirStep (scanArchives {} snap.pk3s))
          snap.looseTextures).models_tmp.filterMap
            (fun e => (mkModelOut e.2).map (fun out => (e.1, out)))).find?
              (fun e => e.1 == n)).map (fun e => e.2) := rfl
  rw [h2, h1]
  rw [show ((scanLooseTextures (snap.modelDirs.foldl diskDirStep (scanArchives {} snap.pk3s))
      snap.looseTextures).models_tmp.find? (fun e => e.1 == n)).map (fun e => e.2)
    = lookupEntry (scanLooseTextures (snap.modelDirs.foldl diskDirStep
        (scanArchives {} snap.pk3s)) snap.looseTextures) n from rfl]
  rw [lookupEntry_scanLooseTextures]

theorem lookup_dirsFold_equiv {s t : Snapshot} (h : snapEquiv s t)
    (hnd : (t.modelDirs.map DiskModelDir.name).Nodup) (m : String) :
    optRel entEquiv
      (lookupEntry (s.modelDirs.foldl diskDirStep (scanArchives {} s.pk3s)) m)
      (lookupEntry (t.modelDirs.foldl diskDirStep (scanArchives {} t.pk3s)) m) := by
  obtain ⟨hpk, ⟨mid, hperm, hf2⟩, _⟩ := h
  have hmidnames : mid.map DiskModelDir.name = t.modelDirs.map DiskModelDir.name :=
    forall₂_dir_names hf2
  have hnods : (s.modelDirs.map DiskModelDir.name).Nodup := by
    have hmp : (s.modelDirs.map DiskModelDir.name).Perm (t.modelDirs.map DiskModelDir.name) := by
      rw [← hmidnames]
      exact hperm.map _
    exact hmp.nodup_iff.mpr hnd
  rw [hpk]
  rw [lookupEntry_dirsFold s.modelDirs (scanArchives {} t.pk3s) m hnods,
      lookupEntry_dirsFold t.modelDirs (scanArchives {} t.pk3s) m hnd]
  rw [find?_name_perm hperm hnods m]
  have hopt := find?_name_forall₂ hf2 m
  rcases h1 : mid.find? (fun d => d.name == m) with _ | d
  · rw [h1] at hopt
    rw [h1]
    rcases h2 : t.modelDirs.find? (fun d => d.name == m) with _ | d2
    · rw [h2]
      exact optRel_entEquiv_refl _
    · rw [h2] at hopt
      exact False.elim hopt
  · rw [h1] at hopt
    rw [h1]
    rcases h2 : t.modelDirs.find? (fun d => d.name == m) with _ | d2
    · rw [h2] at hopt
      exact False.elim hopt
    · rw [h2] at hopt
      rw [h2]
      exact dirLookupResult_equiv hopt _

/-- C9: `build_index` is deterministic over an unchanged input tree: two runs
over the same unchanged scan root (same sorted pk3 list; the same model
directories and loose textures, enumerated in any order, with model-directory
names unique as they are on a filesystem) produce indexes with identical
model-name sets (`get` succeeds for exactly the same names), the same
primary-source priority class for every model, and identical skin-file sets
per model. -/
theorem spec_C9 {s t : Snapshot} (h : snapEquiv s t)
    (hnd : (t.modelDirs.map DiskModelDir.name).Nodup) (n : String) :
    (findModel (build_index s) n).isSome = (findModel (build_index t) n).isSome
    ∧ ∀ oa ob, findModel (build_index s) n = some oa →
        findModel (build_index t) n = some ob →
          prioClass oa.primary = prioClass ob.primary
          ∧ (∀ x, x ∈ oa.skins ↔ x ∈ ob.skins) := by
  have hl := lookup_dirsFold_equiv h hnd n
  rw [findModel_build_index s n, findModel_build_index t n]
  rcases hA : lookupEntry (s.modelDirs.foldl diskDirStep (scanArchives {} s.pk3s)) n
    with _ | ea
  · rw [hA] at hl
    rcases hB : lookupEntry (t.modelDirs.foldl diskDirStep (scanArchives {} t.pk3s)) n
      with _ | eb
    · exact ⟨rfl, fun oa ob hoa hob => absurd hoa (by simp)⟩
    · rw [hB] at hl
      exact False.elim hl
  · rw [hA] at hl
    rcases hB : lookupEntry (t.modelDirs.foldl diskDirStep (scanArchives {} t.pk3s)) n
      with _ | eb
    · rw [hB] at hl
      exact False.elim hl
    · rw [hB] at hl
      have hmk := mkOut_equiv hl
      refine ⟨by simpa using hmk.1, ?_⟩
      intro oa ob hoa hob
      exact hmk.2 oa ob (by simpa using hoa) (by simpa using hob)

def c9dirS : DiskModelDir :=
  ⟨"kyle", ["models/players/kyle/model.glm"],
   ["models/players/kyle/model_red.skin", "models/players/kyle/model_blue.skin"], [], []⟩

def c9dirT : DiskModelDir :=
  ⟨"kyle", ["models/players/kyle/model.glm"],
   ["models/players/kyle/model_blue.skin", "models/players/kyle/model_red.skin"], [], []⟩

def c9s : Snapshot := ⟨[], [c9dirS], ["textures/a.jpg", "textures/b.jpg"]⟩

def c9t : Snapshot := ⟨[], [c9dirT], ["textures/b.jpg", "textures/a.jpg"]⟩

theorem spec_C9_witness :
    snapEquiv c9s c9t
    ∧ (c9t.modelDirs.map DiskModelDir.name).Nodup
    ∧ ((findModel (build_index c9s) "kyle").isSome
          = (findModel (build_index c9t) "kyle").isSome
       ∧ ∀ oa ob, findModel (build_index c9s) "kyle" = some oa →
           findModel (build_index c9t) "kyle" = some ob →
             prioClass oa.primary = prioClass ob.primary
             ∧ (∀ x, x ∈ oa.skins ↔ x ∈ ob.skins)) := by
  have hequiv : snapEquiv c9s c9t :=
    ⟨rfl,
     ⟨[c9dirS], List.Perm.refl _,
      List.Forall₂.cons ⟨rfl, by decide, by decide, by decide, by decide⟩ List.Forall₂.nil⟩,
     by decide⟩
  exact ⟨hequiv, by decide, spec_C9 hequiv (by decide) "kyle"⟩
